import Mathlib

/-!
Verification development for the window-function evaluation engine specified by
the repository. The repository notebook only invokes an external query engine,
so the engine itself is modelled here from the specification text (sections 3
to 7 of the spec): every definition below marked "Modelled from the spec"
embeds the component the spec describes, and the worked-example data is
transcribed from the notebook cells.
-/

namespace SparkWindow

/-- Modelled from the spec: scalar values of the Row and Schema Model
(spec section 3); the engine is absent from the sources, only its invocations
appear in the notebook. The integer and float cases are modelled as exact
rationals; strings and the null value are kept as written. -/
inductive Value where
  | num (q : ℚ)
  | str (s : String)
  | null
deriving DecidableEq, Repr

/-- Modelled from the spec: a Row is an ordered mapping from column name to a
typed scalar value, immutable once read (spec section 3). -/
structure Row where
  cols : List (String × Value)
deriving DecidableEq, Repr

instance : Inhabited Row := ⟨⟨[]⟩⟩

/-- Value of a named column, when the column is present in the row. -/
def Row.find? (r : Row) (c : String) : Option Value :=
  (r.cols.find? (fun p => p.1 == c)).map (fun p => p.2)

/-- Value of a named column, null when the column is absent. -/
def Row.get (r : Row) (c : String) : Value :=
  (r.find? c).getD .null

/-- Modelled from the spec: sort direction of one OrderSpec entry. -/
inductive Direction where
  | asc
  | desc
deriving DecidableEq, Repr

/-- Modelled from the spec: null placement of one OrderSpec entry. -/
inductive NullPlacement where
  | first
  | last
deriving DecidableEq, Repr

/-- Modelled from the spec: one entry of an OrderSpec, a column with a
direction and a null placement (spec section 3). -/
structure OrderEntry where
  column : String
  dir : Direction
  nulls : NullPlacement
deriving DecidableEq, Repr

/-- Modelled from the spec: an OrderSpec is an ordered sequence of entries,
compared left to right (spec sections 3 and 4.2). -/
abbrev OrderSpec := List OrderEntry

/-- Sort key of a single value: a constructor tag ordering nulls first or
last, then the numeric part, then the string part. -/
def Value.sortKey (nulls : NullPlacement) : Value → ℕ × ℚ × String
  | .null => (match nulls with | .first => 0 | .last => 3, 0, "")
  | .num q => (1, q, "")
  | .str s => (2, 0, s)

/-- Three-way comparison induced by a linear order. -/
def cmpOf {α : Type} [LinearOrder α] (a b : α) : Ordering :=
  if a < b then .lt else if a = b then .eq else .gt

/-- Structural lexicographic comparison of two character lists; the string
order of the engine is defined through it so that every comparison is a
computable structural recursion. -/
def cmpCharList : List Char → List Char → Ordering
  | [], [] => .eq
  | [], _ :: _ => .lt
  | _ :: _, [] => .gt
  | a :: as, b :: bs => (cmpOf a b).then (cmpCharList as bs)

/-- Comparison of two strings through their character lists. -/
def cmpStr (a b : String) : Ordering := cmpCharList a.data b.data

/-- Lexicographic composition of the componentwise comparisons of a sort
key. -/
def cmpKey (a b : ℕ × ℚ × String) : Ordering :=
  (cmpOf a.1 b.1).then ((cmpOf a.2.1 b.2.1).then (cmpStr a.2.2 b.2.2))

/-- Sort key of a row under one OrderSpec entry. -/
def entryKey (e : OrderEntry) (r : Row) : ℕ × ℚ × String :=
  Value.sortKey e.nulls (r.get e.column)

/-- Modelled from the spec: comparison of two rows under one OrderSpec entry;
a descending entry reverses the comparison (spec section 4.2). -/
def cmpEntry (e : OrderEntry) (a b : Row) : Ordering :=
  match e.dir with
  | .asc => cmpKey (entryKey e a) (entryKey e b)
  | .desc => cmpKey (entryKey e b) (entryKey e a)

/-- Modelled from the spec: comparison of two rows under an OrderSpec entry
list, evaluated left to right, the first criterion that is not equal
deciding (spec section 4.2). -/
def cmpRow : OrderSpec → Row → Row → Ordering
  | [], _, _ => .eq
  | e :: es, a, b => (cmpEntry e a b).then (cmpRow es a b)

/-- Full list of sort keys of a row under an OrderSpec. -/
def rowKeys (os : OrderSpec) (r : Row) : List (ℕ × ℚ × String) :=
  os.map (fun e => entryKey e r)

/-- Row order used by the Orderer: a row precedes another when the comparison
does not return gt. -/
def leRow (os : OrderSpec) (a b : Row) : Prop := cmpRow os a b ≠ .gt

instance (os : OrderSpec) (a b : Row) : Decidable (leRow os a b) := by
  unfold leRow
  infer_instance

/-- Insertion of a row into an already ordered list, keeping it before the
first row it precedes. -/
def orderedInsert (os : OrderSpec) (a : Row) : List Row → List Row
  | [] => [a]
  | b :: bs =>
    if leRow os a b then a :: b :: bs else b :: orderedInsert os a bs

/-- Modelled from the spec: the Orderer sorts one partition by the OrderSpec
(spec section 4.2). A stable insertion sort realises the implementer freedom
of choosing original input order as the tiebreak inside a peer group. -/
def orderPartition (os : OrderSpec) : List Row → List Row
  | [] => []
  | a :: as => orderedInsert os a (orderPartition os as)

/-- An ordered partition: consecutive rows never compare as gt. -/
def SortedRows (os : OrderSpec) (l : List Row) : Prop :=
  List.Pairwise (leRow os) l

instance (os : OrderSpec) (l : List Row) : Decidable (SortedRows os l) := by
  unfold SortedRows
  infer_instance

/-- Modelled from the spec: a PartitionKey is an ordered sequence of column
names (spec section 3). -/
abbrev PartitionKey := List String

/-- Key tuple of a row; absent columns and nulls both give the null value, so
null equals null for grouping as in spec section 4.1. -/
def keyTuple (pk : PartitionKey) (r : Row) : List Value := pk.map r.get

/-- Modelled from the spec: the Partitioner groups rows by key-tuple equality;
partitions are listed in first-appearance order of their key, each preserving
input order of its members (spec section 4.1). -/
def partitionBy (pk : PartitionKey) (rows : List Row) : List (List Row) :=
  ((rows.map (keyTuple pk)).dedup).map
    (fun k => rows.filter (fun r => decide (keyTuple pk r = k)))

/-- Peer test of the Orderer: two rows equal under every OrderSpec entry. -/
def isPeer (os : OrderSpec) (a b : Row) : Bool := decide (cmpRow os a b = .eq)

/-- Flags of the adjacent steps of an ordered partition: true where a step
crosses a peer-group boundary. -/
def adjSteps (os : OrderSpec) (l : List Row) : List Bool :=
  (l.zip l.tail).map (fun p => !isPeer os p.1 p.2)

/-- Modelled from the spec: the peer-group id map of the Orderer
(spec section 4.2); the id of the row at an index counts the peer-group
boundaries preceding that index in the ordered partition. -/
def peerId (os : OrderSpec) (l : List Row) (i : ℕ) : ℕ :=
  ((adjSteps os l).take i).countP id

/-- Peer-group ids of all rows of the ordered partition, in row order. -/
def idsList (os : OrderSpec) (l : List Row) : List ℕ :=
  (List.range l.length).map (peerId os l)

/-- Modelled from the spec: frame unit, ROWS or RANGE (spec section 3). -/
inductive FrameUnit where
  | rows
  | range
deriving DecidableEq, Repr

/-- Modelled from the spec: frame boundary vocabulary (spec section 3). -/
inductive FrameBound where
  | unboundedPreceding
  | preceding (k : ℕ)
  | currentRow
  | following (k : ℕ)
  | unboundedFollowing
deriving DecidableEq, Repr

/-- Modelled from the spec: a FrameSpec with its unit and two boundaries
(spec section 3). -/
structure FrameSpec where
  unit : FrameUnit
  lo : FrameBound
  hi : FrameBound
deriving DecidableEq, Repr

/-- Modelled from the spec: a ResolvedFrame is a concrete inclusive index
range clamped to the partition bounds (spec section 3). -/
structure ResolvedFrame where
  low : ℕ
  high : ℕ
deriving DecidableEq, Repr

/-- Modelled from the spec: the error taxonomy surfaced by the engine
(spec sections 6 and 7). -/
inductive EvalError where
  | invalidKey (c : String)
  | invalidFrame
  | typeMismatch
  | unsupportedFunction
deriving DecidableEq, Repr

/-- True when a frame boundary is a numeric offset. -/
def numOffset : FrameBound → Bool
  | .preceding _ => true
  | .following _ => true
  | _ => false

/-- Modelled from the spec: literal row-index resolution of a ROWS boundary
relative to the current index (spec section 4.3). -/
def rowsBound (i n : ℤ) : FrameBound → ℤ
  | .unboundedPreceding => 0
  | .preceding k => i - k
  | .currentRow => i
  | .following k => i + k
  | .unboundedFollowing => n - 1

/-- Clamp of an index into the partition bounds. -/
def clampIdx (n x : ℤ) : ℤ := max 0 (min (n - 1) x)

/-- First index of the peer group of the current row: the number of rows in
strictly earlier peer groups. -/
def groupStart (os : OrderSpec) (l : List Row) (i : ℕ) : ℕ :=
  (idsList os l).countP (fun v => decide (v < peerId os l i))

/-- Index just after the peer group of the current row: the number of rows up
to and including that peer group. -/
def groupStop (os : OrderSpec) (l : List Row) (i : ℕ) : ℕ :=
  (idsList os l).countP (fun v => decide (v ≤ peerId os l i))

/-- Numeric ordering value of a row for RANGE offset frames: the single ORDER
BY column, negated for a descending direction so that the ordered partition is
ascending in this value. -/
def numKey (e : OrderEntry) (r : Row) : Option ℚ :=
  match r.get e.column with
  | .num q => some (match e.dir with | .asc => q | .desc => -q)
  | _ => none

/-- Numeric ordering value with a junk fallback, used only after the numeric
check has succeeded. -/
def numKeyD (e : OrderEntry) (r : Row) : ℚ := (numKey e r).getD 0

/-- Modelled from the spec: RANGE boundary resolution of the low end
(spec section 4.3): peer-group based for the symbolic boundaries; a numeric
offset over a single numeric ORDER BY column extends the boundary to the
first row whose ordering value lies within the offset distance. -/
def rangeLow (os : OrderSpec) (l : List Row) (i : ℕ) : FrameBound → ℤ
  | .unboundedPreceding => 0
  | .currentRow => groupStart os l i
  | .unboundedFollowing => (l.length : ℤ) - 1
  | .preceding k =>
    match os with
    | [e] =>
      ((l.map (numKeyD e)).findIdx
        (fun x => decide (numKeyD e (l.getD i default) - k ≤ x)) : ℤ)
    | _ => 0
  | .following k =>
    match os with
    | [e] =>
      ((l.map (numKeyD e)).findIdx
        (fun x => decide (numKeyD e (l.getD i default) + k ≤ x)) : ℤ)
    | _ => 0

/-- Modelled from the spec: RANGE boundary resolution of the high end
(spec section 4.3), symmetric to the low end: a numeric offset keeps every row
whose ordering value lies within the offset distance. -/
def rangeHigh (os : OrderSpec) (l : List Row) (i : ℕ) : FrameBound → ℤ
  | .unboundedPreceding => 0
  | .currentRow => (groupStop os l i : ℤ) - 1
  | .unboundedFollowing => (l.length : ℤ) - 1
  | .preceding k =>
    match os with
    | [e] =>
      ((l.map (numKeyD e)).countP
        (fun x => decide (x ≤ numKeyD e (l.getD i default) - k)) : ℤ) - 1
    | _ => 0
  | .following k =>
    match os with
    | [e] =>
      ((l.map (numKeyD e)).countP
        (fun x => decide (x ≤ numKeyD e (l.getD i default) + k)) : ℤ) - 1
    | _ => 0

/-- Resolved and clamped low boundary index of a frame at the current row. -/
def frameLowIdx (os : OrderSpec) (l : List Row) (fs : FrameSpec) (i : ℕ) : ℤ :=
  match fs.unit with
  | .rows => clampIdx l.length (rowsBound i l.length fs.lo)
  | .range => rangeLow os l i fs.lo

/-- Resolved and clamped high boundary index of a frame at the current row. -/
def frameHighIdx (os : OrderSpec) (l : List Row) (fs : FrameSpec) (i : ℕ) : ℤ :=
  match fs.unit with
  | .rows => clampIdx l.length (rowsBound i l.length fs.hi)
  | .range => rangeHigh os l i fs.hi

/-- Packaging of two resolved boundary indices into a ResolvedFrame, failing
when the start exceeds the end. -/
def mkFrame (lo hi : ℤ) : Except EvalError ResolvedFrame :=
  if lo ≤ hi then .ok ⟨lo.toNat, hi.toNat⟩ else .error .invalidFrame

/-- Modelled from the spec: the Frame Resolver (spec section 4.3). It fails
with InvalidFrame when a RANGE frame combines a numeric offset boundary with a
multi-column OrderSpec, with TypeMismatch when such an offset lacks a single
numeric ORDER BY column, and with InvalidFrame when the resolved start exceeds
the resolved end after clamping. -/
def resolveFrame (os : OrderSpec) (l : List Row) (fs : FrameSpec) (i : ℕ) :
    Except EvalError ResolvedFrame :=
  if fs.unit = .range ∧ (numOffset fs.lo ∨ numOffset fs.hi) then
    match os with
    | [] => .error .typeMismatch
    | _ :: _ :: _ => .error .invalidFrame
    | [e] =>
      if l.all (fun r => (numKey e r).isSome) then
        mkFrame (frameLowIdx os l fs i) (frameHighIdx os l fs i)
      else .error .typeMismatch
  else
    mkFrame (frameLowIdx os l fs i) (frameHighIdx os l fs i)

/-- Usability of a frame over an order spec and partition: whenever the frame
is a RANGE frame with a numeric offset boundary, the OrderSpec must be a
single column whose value is numeric in every row (spec section 4.3). -/
def offsetFrameOk (os : OrderSpec) (l : List Row) (fs : FrameSpec) : Prop :=
  fs.unit = .range ∧ (numOffset fs.lo ∨ numOffset fs.hi) →
    ∃ e, os = [e] ∧ l.all (fun r => (numKey e r).isSome)

/-- Modelled from the spec: the default FrameSpec (spec section 4.3): RANGE
from UNBOUNDED PRECEDING to CURRENT ROW when the OrderSpec is non-empty, ROWS
unbounded on both sides when it is empty. -/
def defaultFrame : OrderSpec → FrameSpec
  | [] => ⟨.rows, .unboundedPreceding, .unboundedFollowing⟩
  | _ :: _ => ⟨.range, .unboundedPreceding, .currentRow⟩

/-- Modelled from the spec: the function kinds demonstrated in the notebook,
with their literal arguments (spec sections 4.4 and 6); lag and lead carry the
offset and the default value, the default being null when the call site does
not supply one. -/
inductive FuncKind where
  | rowNumber
  | rank
  | denseRank
  | percentRank
  | lag (col : String) (offset : ℕ) (dflt : Value)
  | lead (col : String) (offset : ℕ) (dflt : Value)
  | firstValue (col : String)
  | lastValue (col : String)
deriving DecidableEq, Repr

/-- Modelled from the spec: a FunctionCall binds a function kind to an output
column name (spec section 6). -/
structure FunctionCall where
  kind : FuncKind
  out : String
deriving DecidableEq, Repr

/-- Modelled from the spec: row_number is 1 plus the count of rows preceding
the current row in sorted order (spec section 4.4). -/
def rowNumberAt (l : List Row) (i : ℕ) : ℕ := 1 + (l.take i).length

/-- Modelled from the spec: rank is 1 plus the count of rows strictly
preceding the current row's peer group, i.e. of rows carrying a smaller
peer-group id (spec section 4.4). -/
def rankAt (os : OrderSpec) (l : List Row) (i : ℕ) : ℕ :=
  1 + (idsList os l).countP (fun v => decide (v < peerId os l i))

/-- Modelled from the spec: dense_rank is 1 plus the count of distinct peer
groups strictly preceding the current row's peer group (spec section 4.4). -/
def denseRankAt (os : OrderSpec) (l : List Row) (i : ℕ) : ℕ :=
  1 + ((idsList os l).filter (fun v => decide (v < peerId os l i))).dedup.length

/-- Modelled from the spec: percent_rank is (rank - 1) / (partitionSize - 1),
and 0 when the partition has a single row (spec section 4.4). The quotient is
built with mkRat, which is the same rational as the division; the bridging
lemma restates it with the division of the spec formula. -/
def percentRankAt (os : OrderSpec) (l : List Row) (i : ℕ) : ℚ :=
  if l.length = 1 then 0
  else mkRat ((rankAt os l i : ℤ) - 1) (l.length - 1)

/-- Modelled from the spec: lag reads the column at currentIndex - offset of
the partition's full ordered sequence, ignoring the frame, and yields the
default when that index leaves the partition (spec section 4.4). -/
def lagAt (col : String) (off : ℕ) (dflt : Value) (l : List Row) (i : ℕ) :
    Value :=
  if off ≤ i ∧ i - off < l.length then (l.getD (i - off) default).get col
  else dflt

/-- Modelled from the spec: lead is symmetric to lag, reading the column at
currentIndex + offset (spec section 4.4). -/
def leadAt (col : String) (off : ℕ) (dflt : Value) (l : List Row) (i : ℕ) :
    Value :=
  if i + off < l.length then (l.getD (i + off) default).get col else dflt

/-- Column value of the row at a resolved frame boundary index. -/
def valueAtIdx (col : String) (l : List Row) (j : ℕ) : Value :=
  (l.getD j default).get col

/-- Modelled from the spec: the Function Evaluator dispatch (spec section
4.4); the ranking and offset functions ignore the frame, the value functions
first resolve it. -/
def evalCall (os : OrderSpec) (fs : FrameSpec) (l : List Row) (i : ℕ) :
    FuncKind → Except EvalError Value
  | .rowNumber => .ok (.num (rowNumberAt l i))
  | .rank => .ok (.num (rankAt os l i))
  | .denseRank => .ok (.num (denseRankAt os l i))
  | .percentRank => .ok (.num (percentRankAt os l i))
  | .lag col off dflt => .ok (lagAt col off dflt l i)
  | .lead col off dflt => .ok (leadAt col off dflt l i)
  | .firstValue col =>
    match resolveFrame os l fs i with
    | .error e => .error e
    | .ok f => .ok (valueAtIdx col l f.low)
  | .lastValue col =>
    match resolveFrame os l fs i with
    | .error e => .error e
    | .ok f => .ok (valueAtIdx col l f.high)

/-- Computed output cells of all calls at one row. -/
def evalRowCalls (os : OrderSpec) (fs : FrameSpec) (l : List Row) (i : ℕ) :
    List FunctionCall → Except EvalError (List (String × Value))
  | [] => .ok []
  | c :: cs =>
    match evalCall os fs l i c.kind with
    | .error e => .error e
    | .ok v =>
      match evalRowCalls os fs l i cs with
      | .error e => .error e
      | .ok rest => .ok ((c.out, v) :: rest)

/-- Modelled from the spec: per-row evaluation over a list of row indices of
the ordered partition; every output row merges the computed columns with the
original columns, a computed column taking precedence on a name clash
(spec section 4.5). -/
def evalIndices (os : OrderSpec) (fs : FrameSpec) (l : List Row)
    (calls : List FunctionCall) : List ℕ → Except EvalError (List Row)
  | [] => .ok []
  | i :: is =>
    match evalRowCalls os fs l i calls with
    | .error e => .error e
    | .ok added =>
      match evalIndices os fs l calls is with
      | .error e => .error e
      | .ok rest => .ok (⟨added ++ (l.getD i default).cols⟩ :: rest)

/-- Modelled from the spec: a WindowSpec with its partition key, order spec
and optional frame (spec section 3). -/
structure WindowSpec where
  partitionKey : PartitionKey
  orderSpec : OrderSpec
  frame : Option FrameSpec
deriving DecidableEq, Repr

/-- Frame of a WindowSpec, falling back to the default frame. -/
def WindowSpec.frameSpec (ws : WindowSpec) : FrameSpec :=
  ws.frame.getD (defaultFrame ws.orderSpec)

/-- Evaluation of one partition: order it, then evaluate every call at every
row index (spec section 4.5). -/
def evaluatePartition (os : OrderSpec) (fs : FrameSpec)
    (calls : List FunctionCall) (p : List Row) : Except EvalError (List Row) :=
  evalIndices os fs (orderPartition os p) calls
    (List.range (orderPartition os p).length)

/-- Evaluation of every partition in order, concatenating the outputs. -/
def evalParts (os : OrderSpec) (fs : FrameSpec) (calls : List FunctionCall) :
    List (List Row) → Except EvalError (List Row)
  | [] => .ok []
  | p :: ps =>
    match evaluatePartition os fs calls p with
    | .error e => .error e
    | .ok out =>
      match evalParts os fs calls ps with
      | .error e => .error e
      | .ok rest => .ok (out ++ rest)

/-- First partition-key column absent from some row, if any
(spec section 4.1). -/
def missingKeyCol (pk : PartitionKey) (rows : List Row) : Option String :=
  pk.find? (fun c => rows.any (fun r => (r.find? c).isNone))

/-- Modelled from the spec: the Pipeline Driver and the Evaluate entry point
for one WindowSpec bound to a list of FunctionCalls (spec sections 4.5
and 6): partition once, order each partition once, then resolve and evaluate
every call at every row; a configuration error aborts the evaluation and is
reported to the caller. -/
def Evaluate (rows : List Row) (ws : WindowSpec)
    (calls : List FunctionCall) : Except EvalError (List Row) :=
  match missingKeyCol ws.partitionKey rows with
  | some c => .error (.invalidKey c)
  | none =>
    evalParts ws.orderSpec ws.frameSpec calls
      (partitionBy ws.partitionKey rows)

/-- Row constructor for the worked-example table of the notebook. -/
def mkRow (name date : String) (amount : ℚ) : Row :=
  ⟨[("customer_name", .str name), ("date", .str date), ("amount", .num amount)]⟩

/-- The eight input rows created by the createDataFrame cell of the
notebook. -/
def customers : List Row :=
  [mkRow "Customer0" "2019-04-01" 60,
   mkRow "Customer1" "2019-04-01" 30,
   mkRow "Customer2" "2019-04-01" 40,
   mkRow "Customer3" "2019-04-01" 40,
   mkRow "Customer4" "2019-04-01" 20,
   mkRow "Customer5" "2019-04-02" 20,
   mkRow "Customer6" "2019-04-02" 10,
   mkRow "Customer7" "2019-04-02" 60]

/-- The ordering used throughout the notebook: amount descending. -/
def amountDesc : OrderSpec := [⟨"amount", .desc, .last⟩]

/-- The window specification of the notebook: partition by date, order by
amount descending, default frame. -/
def byDate : WindowSpec := ⟨["date"], amountDesc, none⟩

/-- The window specification of the last_value cells: rows between unbounded
preceding and unbounded following. -/
def byDateUnbounded : WindowSpec :=
  ⟨["date"], amountDesc, some ⟨.rows, .unboundedPreceding, .unboundedFollowing⟩⟩

/-- The date 2019-04-01 partition in input order. -/
def d1rows : List Row := customers.take 5

/-- The ordered date 2019-04-01 partition of the worked example. -/
def d1sorted : List Row := orderPartition amountDesc d1rows

/-- A two-row partition of tied rows: equal order value, distinct rows; used
as concrete input where peer-group behaviour matters. -/
def tiedRows : List Row :=
  [mkRow "a" "2019-04-01" 10, mkRow "b" "2019-04-01" 10]

/-- The tied partition after ordering. -/
def tiedSorted : List Row := orderPartition amountDesc tiedRows

/-- The tied partition in the opposite peer order: also a valid output of the
Orderer, since order inside a peer group is unspecified. -/
def tiedSwapped : List Row :=
  [mkRow "b" "2019-04-01" 10, mkRow "a" "2019-04-01" 10]

/-- Output rows of evaluating lag(amount, 1) over the tied partition. -/
def lagWitnessRows : List Row :=
  [⟨[("lag", Value.null)] ++ (mkRow "a" "2019-04-01" 10).cols⟩,
   ⟨[("lag", Value.num 10)] ++ (mkRow "b" "2019-04-01" 10).cols⟩]

/-- Output rows of evaluating row_number over the full worked-example input. -/
def rowNumberOutput : List Row :=
  [⟨[("row", Value.num 1)] ++ (mkRow "Customer0" "2019-04-01" 60).cols⟩,
   ⟨[("row", Value.num 2)] ++ (mkRow "Customer2" "2019-04-01" 40).cols⟩,
   ⟨[("row", Value.num 3)] ++ (mkRow "Customer3" "2019-04-01" 40).cols⟩,
   ⟨[("row", Value.num 4)] ++ (mkRow "Customer1" "2019-04-01" 30).cols⟩,
   ⟨[("row", Value.num 5)] ++ (mkRow "Customer4" "2019-04-01" 20).cols⟩,
   ⟨[("row", Value.num 1)] ++ (mkRow "Customer7" "2019-04-02" 60).cols⟩,
   ⟨[("row", Value.num 2)] ++ (mkRow "Customer5" "2019-04-02" 20).cols⟩,
   ⟨[("row", Value.num 3)] ++ (mkRow "Customer6" "2019-04-02" 10).cols⟩]

/-- Column of row_number values of an ordered partition, in row order. -/
def rowNumberCol (l : List Row) : List ℕ :=
  (List.range l.length).map (rowNumberAt l)

/-- Column of rank values of an ordered partition, in row order. -/
def rankCol (os : OrderSpec) (l : List Row) : List ℕ :=
  (List.range l.length).map (rankAt os l)

/-- Column of dense_rank values of an ordered partition, in row order. -/
def denseRankCol (os : OrderSpec) (l : List Row) : List ℕ :=
  (List.range l.length).map (denseRankAt os l)

/-- Column of percent_rank values of an ordered partition, in row order. -/
def percentRankCol (os : OrderSpec) (l : List Row) : List ℚ :=
  (List.range l.length).map (percentRankAt os l)

/-- Column of lag values of an ordered partition, in row order. -/
def lagCol (col : String) (off : ℕ) (dflt : Value) (l : List Row) :
    List Value :=
  (List.range l.length).map (lagAt col off dflt l)

/-- Column of lead values of an ordered partition, in row order. -/
def leadCol (col : String) (off : ℕ) (dflt : Value) (l : List Row) :
    List Value :=
  (List.range l.length).map (leadAt col off dflt l)

/-- Column of results of one call over an ordered partition, in row order. -/
def evalCol (os : OrderSpec) (fs : FrameSpec) (l : List Row) (k : FuncKind) :
    List (Except EvalError Value) :=
  (List.range l.length).map (fun i => evalCall os fs l i k)

deriving instance DecidableEq for Except

/-- Projection of an output row onto the four columns displayed by the
notebook tables: customer_name, date, amount, and the computed column. -/
def projectOut (out : String) (r : Row) : Value × Value × Value × Value :=
  (r.get "customer_name", r.get "date", r.get "amount", r.get out)

/-- Projection of a full evaluation result onto the displayed columns. -/
def showResult (out : String) (res : Except EvalError (List Row)) :
    Except EvalError (List (Value × Value × Value × Value)) :=
  res.map (List.map (projectOut out))

/-- One displayed row of a notebook output table. -/
def shownRow (name date : String) (amount : ℚ) (v : Value) :
    Value × Value × Value × Value :=
  (.str name, .str date, .num amount, v)

/-- Table printed by the row_number DataFrame cell of the notebook. -/
def dfShownRowNumber : List (Value × Value × Value × Value) :=
  [shownRow "Customer0" "2019-04-01" 60 (.num 1),
   shownRow "Customer2" "2019-04-01" 40 (.num 2),
   shownRow "Customer3" "2019-04-01" 40 (.num 3),
   shownRow "Customer1" "2019-04-01" 30 (.num 4),
   shownRow "Customer4" "2019-04-01" 20 (.num 5),
   shownRow "Customer7" "2019-04-02" 60 (.num 1),
   shownRow "Customer5" "2019-04-02" 20 (.num 2),
   shownRow "Customer6" "2019-04-02" 10 (.num 3)]

/-- Table printed by the row_number SQL cell of the notebook. -/
def sqlShownRowNumber : List (Value × Value × Value × Value) :=
  [shownRow "Customer0" "2019-04-01" 60 (.num 1),
   shownRow "Customer2" "2019-04-01" 40 (.num 2),
   shownRow "Customer3" "2019-04-01" 40 (.num 3),
   shownRow "Customer1" "2019-04-01" 30 (.num 4),
   shownRow "Customer4" "2019-04-01" 20 (.num 5),
   shownRow "Customer7" "2019-04-02" 60 (.num 1),
   shownRow "Customer5" "2019-04-02" 20 (.num 2),
   shownRow "Customer6" "2019-04-02" 10 (.num 3)]

/-- Table printed by the rank DataFrame cell of the notebook. -/
def dfShownRank : List (Value × Value × Value × Value) :=
  [shownRow "Customer0" "2019-04-01" 60 (.num 1),
   shownRow "Customer2" "2019-04-01" 40 (.num 2),
   shownRow "Customer3" "2019-04-01" 40 (.num 2),
   shownRow "Customer1" "2019-04-01" 30 (.num 4),
   shownRow "Customer4" "2019-04-01" 20 (.num 5),
   shownRow "Customer7" "2019-04-02" 60 (.num 1),
   shownRow "Customer5" "2019-04-02" 20 (.num 2),
   shownRow "Customer6" "2019-04-02" 10 (.num 3)]

/-- Table printed by the rank SQL cell of the notebook. -/
def sqlShownRank : List (Value × Value × Value × Value) :=
  [shownRow "Customer0" "2019-04-01" 60 (.num 1),
   shownRow "Customer2" "2019-04-01" 40 (.num 2),
   shownRow "Customer3" "2019-04-01" 40 (.num 2),
   shownRow "Customer1" "2019-04-01" 30 (.num 4),
   shownRow "Customer4" "2019-04-01" 20 (.num 5),
   shownRow "Customer7" "2019-04-02" 60 (.num 1),
   shownRow "Customer5" "2019-04-02" 20 (.num 2),
   shownRow "Customer6" "2019-04-02" 10 (.num 3)]

/-- Table printed by the dense_rank DataFrame cell of the notebook. -/
def dfShownDenseRank : List (Value × Value × Value × Value) :=
  [shownRow "Customer0" "2019-04-01" 60 (.num 1),
   shownRow "Customer2" "2019-04-01" 40 (.num 2),
   shownRow "Customer3" "2019-04-01" 40 (.num 2),
   shownRow "Customer1" "2019-04-01" 30 (.num 3),
   shownRow "Customer4" "2019-04-01" 20 (.num 4),
   shownRow "Customer7" "2019-04-02" 60 (.num 1),
   shownRow "Customer5" "2019-04-02" 20 (.num 2),
   shownRow "Customer6" "2019-04-02" 10 (.num 3)]

/-- Table printed by the dense_rank SQL cell of the notebook. -/
def sqlShownDenseRank : List (Value × Value × Value × Value) :=
  [shownRow "Customer0" "2019-04-01" 60 (.num 1),
   shownRow "Customer2" "2019-04-01" 40 (.num 2),
   shownRow "Customer3" "2019-04-01" 40 (.num 2),
   shownRow "Customer1" "2019-04-01" 30 (.num 3),
   shownRow "Customer4" "2019-04-01" 20 (.num 4),
   shownRow "Customer7" "2019-04-02" 60 (.num 1),
   shownRow "Customer5" "2019-04-02" 20 (.num 2),
   shownRow "Customer6" "2019-04-02" 10 (.num 3)]

/-- Table printed by the percent_rank DataFrame cell of the notebook. -/
def dfShownPercentRank : List (Value × Value × Value × Value) :=
  [shownRow "Customer0" "2019-04-01" 60 (.num 0),
   shownRow "Customer2" "2019-04-01" 40 (.num (mkRat 1 4)),
   shownRow "Customer3" "2019-04-01" 40 (.num (mkRat 1 4)),
   shownRow "Customer1" "2019-04-01" 30 (.num (mkRat 3 4)),
   shownRow "Customer4" "2019-04-01" 20 (.num 1),
   shownRow "Customer7" "2019-04-02" 60 (.num 0),
   shownRow "Customer5" "2019-04-02" 20 (.num (mkRat 1 2)),
   shownRow "Customer6" "2019-04-02" 10 (.num 1)]

/-- Table printed by the percent_rank SQL cell of the notebook. -/
def sqlShownPercentRank : List (Value × Value × Value × Value) :=
  [shownRow "Customer0" "2019-04-01" 60 (.num 0),
   shownRow "Customer2" "2019-04-01" 40 (.num (mkRat 1 4)),
   shownRow "Customer3" "2019-04-01" 40 (.num (mkRat 1 4)),
   shownRow "Customer1" "2019-04-01" 30 (.num (mkRat 3 4)),
   shownRow "Customer4" "2019-04-01" 20 (.num 1),
   shownRow "Customer7" "2019-04-02" 60 (.num 0),
   shownRow "Customer5" "2019-04-02" 20 (.num (mkRat 1 2)),
   shownRow "Customer6" "2019-04-02" 10 (.num 1)]

/-- Table printed by the lag DataFrame cell of the notebook. -/
def dfShownLag : List (Value × Value × Value × Value) :=
  [shownRow "Customer0" "2019-04-01" 60 .null,
   shownRow "Customer2" "2019-04-01" 40 (.num 60),
   shownRow "Customer3" "2019-04-01" 40 (.num 40),
   shownRow "Customer1" "2019-04-01" 30 (.num 40),
   shownRow "Customer4" "2019-04-01" 20 (.num 30),
   shownRow "Customer7" "2019-04-02" 60 .null,
   shownRow "Customer5" "2019-04-02" 20 (.num 60),
   shownRow "Customer6" "2019-04-02" 10 (.num 20)]

/-- Table printed by the lag SQL cell of the notebook. -/
def sqlShownLag : List (Value × Value × Value × Value) :=
  [shownRow "Customer0" "2019-04-01" 60 .null,
   shownRow "Customer2" "2019-04-01" 40 (.num 60),
   shownRow "Customer3" "2019-04-01" 40 (.num 40),
   shownRow "Customer1" "2019-04-01" 30 (.num 40),
   shownRow "Customer4" "2019-04-01" 20 (.num 30),
   shownRow "Customer7" "2019-04-02" 60 .null,
   shownRow "Customer5" "2019-04-02" 20 (.num 60),
   shownRow "Customer6" "2019-04-02" 10 (.num 20)]

/-- Table printed by the lead DataFrame cell of the notebook. -/
def dfShownLead : List (Value × Value × Value × Value) :=
  [shownRow "Customer0" "2019-04-01" 60 (.num 40),
   shownRow "Customer2" "2019-04-01" 40 (.num 40),
   shownRow "Customer3" "2019-04-01" 40 (.num 30),
   shownRow "Customer1" "2019-04-01" 30 (.num 20),
   shownRow "Customer4" "2019-04-01" 20 .null,
   shownRow "Customer7" "2019-04-02" 60 (.num 20),
   shownRow "Customer5" "2019-04-02" 20 (.num 10),
   shownRow "Customer6" "2019-04-02" 10 .null]

/-- Table printed by the lead SQL cell of the notebook. -/
def sqlShownLead : List (Value × Value × Value × Value) :=
  [shownRow "Customer0" "2019-04-01" 60 (.num 40),
   shownRow "Customer2" "2019-04-01" 40 (.num 40),
   shownRow "Customer3" "2019-04-01" 40 (.num 30),
   shownRow "Customer1" "2019-04-01" 30 (.num 20),
   shownRow "Customer4" "2019-04-01" 20 .null,
   shownRow "Customer7" "2019-04-02" 60 (.num 20),
   shownRow "Customer5" "2019-04-02" 20 (.num 10),
   shownRow "Customer6" "2019-04-02" 10 .null]

/-- Table printed by the last_value DataFrame cell of the notebook. -/
def dfShownLast : List (Value × Value × Value × Value) :=
  [shownRow "Customer0" "2019-04-01" 60 (.num 20),
   shownRow "Customer2" "2019-04-01" 40 (.num 20),
   shownRow "Customer3" "2019-04-01" 40 (.num 20),
   shownRow "Customer1" "2019-04-01" 30 (.num 20),
   shownRow "Customer4" "2019-04-01" 20 (.num 20),
   shownRow "Customer7" "2019-04-02" 60 (.num 10),
   shownRow "Customer5" "2019-04-02" 20 (.num 10),
   shownRow "Customer6" "2019-04-02" 10 (.num 10)]

/-- Table printed by the last_value SQL cell of the notebook. -/
def sqlShownLast : List (Value × Value × Value × Value) :=
  [shownRow "Customer0" "2019-04-01" 60 (.num 20),
   shownRow "Customer2" "2019-04-01" 40 (.num 20),
   shownRow "Customer3" "2019-04-01" 40 (.num 20),
   shownRow "Customer1" "2019-04-01" 30 (.num 20),
   shownRow "Customer4" "2019-04-01" 20 (.num 20),
   shownRow "Customer7" "2019-04-02" 60 (.num 10),
   shownRow "Customer5" "2019-04-02" 20 (.num 10),
   shownRow "Customer6" "2019-04-02" 10 (.num 10)]

theorem cmpOf_eq_lt {α : Type} [LinearOrder α] {a b : α} :
    cmpOf a b = .lt ↔ a < b := by
  unfold cmpOf
  split
  · simp_all
  · split <;> simp_all

theorem cmpOf_eq_eq {α : Type} [LinearOrder α] {a b : α} :
    cmpOf a b = .eq ↔ a = b := by
  unfold cmpOf
  split
  · rename_i h
    simp only [reduceCtorEq, false_iff]
    exact ne_of_lt h
  · split <;> simp_all

theorem cmpOf_eq_gt {α : Type} [LinearOrder α] {a b : α} :
    cmpOf a b = .gt ↔ b < a := by
  unfold cmpOf
  split
  · rename_i h
    simp only [reduceCtorEq, false_iff, not_lt]
    exact le_of_lt h
  · split
    · rename_i h
      subst h
      simp
    · rename_i h h'
      simp only [true_iff]
      rcases lt_trichotomy a b with hc | hc | hc
      · exact absurd hc h
      · exact absurd hc h'
      · exact hc

theorem cmpOf_swap {α : Type} [LinearOrder α] (a b : α) :
    cmpOf a b = (cmpOf b a).swap := by
  rcases lt_trichotomy a b with h | h | h
  · rw [cmpOf_eq_lt.2 h, cmpOf_eq_gt.2 h]
    rfl
  · subst h
    rw [cmpOf_eq_eq.2 rfl]
    rfl
  · rw [cmpOf_eq_gt.2 h, cmpOf_eq_lt.2 h]
    rfl

theorem Ordering.then_eq_eq {o₁ o₂ : Ordering} :
    o₁.then o₂ = .eq ↔ o₁ = .eq ∧ o₂ = .eq := by
  cases o₁ <;> simp [Ordering.then]

theorem Ordering.then_eq_lt {o₁ o₂ : Ordering} :
    o₁.then o₂ = .lt ↔ o₁ = .lt ∨ (o₁ = .eq ∧ o₂ = .lt) := by
  cases o₁ <;> simp [Ordering.then]

theorem Ordering.then_swap (o₁ o₂ : Ordering) :
    (o₁.then o₂).swap = o₁.swap.then o₂.swap := by
  cases o₁ <;> rfl

theorem cmpCharList_eq_eq {l₁ l₂ : List Char} :
    cmpCharList l₁ l₂ = .eq ↔ l₁ = l₂ := by
  induction l₁ generalizing l₂ with
  | nil => cases l₂ <;> simp [cmpCharList]
  | cons a as ih =>
    cases l₂ with
    | nil => simp [cmpCharList]
    | cons b bs =>
      simp only [cmpCharList, Ordering.then_eq_eq, cmpOf_eq_eq, ih,
        List.cons.injEq]

theorem cmpCharList_swap (l₁ l₂ : List Char) :
    cmpCharList l₁ l₂ = (cmpCharList l₂ l₁).swap := by
  induction l₁ generalizing l₂ with
  | nil => cases l₂ <;> rfl
  | cons a as ih =>
    cases l₂ with
    | nil => rfl
    | cons b bs =>
      simp only [cmpCharList, Ordering.then_swap, ← cmpOf_swap, ← ih]

theorem cmpCharList_lt_trans {l₁ l₂ l₃ : List Char}
    (h₁ : cmpCharList l₁ l₂ = .lt) (h₂ : cmpCharList l₂ l₃ = .lt) :
    cmpCharList l₁ l₃ = .lt := by
  induction l₁ generalizing l₂ l₃ with
  | nil =>
    cases l₂ with
    | nil => simp [cmpCharList] at h₁
    | cons b bs =>
      cases l₃ with
      | nil => simp [cmpCharList] at h₂
      | cons c cs => simp [cmpCharList]
  | cons a as ih =>
    cases l₂ with
    | nil => simp [cmpCharList] at h₁
    | cons b bs =>
      cases l₃ with
      | nil => simp [cmpCharList] at h₂
      | cons c cs =>
        simp only [cmpCharList, Ordering.then_eq_lt, cmpOf_eq_lt,
          cmpOf_eq_eq] at h₁ h₂ ⊢
        rcases h₁ with h₁ | ⟨e₁, h₁⟩
        · rcases h₂ with h₂ | ⟨e₂, _⟩
          · exact Or.inl (h₁.trans h₂)
          · exact Or.inl (e₂ ▸ h₁)
        · rcases h₂ with h₂ | ⟨e₂, h₂⟩
          · exact Or.inl (e₁ ▸ h₂)
          · exact Or.inr ⟨e₁.trans e₂, ih h₁ h₂⟩

theorem cmpStr_eq_eq {a b : String} : cmpStr a b = .eq ↔ a = b := by
  unfold cmpStr
  rw [cmpCharList_eq_eq]
  constructor
  · intro h
    obtain ⟨da⟩ := a
    obtain ⟨db⟩ := b
    exact congrArg String.mk h
  · intro h
    rw [h]

theorem cmpStr_swap (a b : String) : cmpStr a b = (cmpStr b a).swap :=
  cmpCharList_swap a.data b.data

theorem cmpStr_lt_trans {a b c : String}
    (h₁ : cmpStr a b = .lt) (h₂ : cmpStr b c = .lt) : cmpStr a c = .lt :=
  cmpCharList_lt_trans h₁ h₂

theorem cmpKey_eq_eq {a b : ℕ × ℚ × String} : cmpKey a b = .eq ↔ a = b := by
  unfold cmpKey
  rw [Ordering.then_eq_eq, Ordering.then_eq_eq, cmpOf_eq_eq, cmpOf_eq_eq,
    cmpStr_eq_eq]
  constructor
  · rintro ⟨h1, h2, h3⟩
    exact Prod.ext h1 (Prod.ext h2 h3)
  · rintro rfl
    exact ⟨rfl, rfl, rfl⟩

theorem cmpKey_eq_lt {a b : ℕ × ℚ × String} :
    cmpKey a b = .lt ↔
      a.1 < b.1 ∨ (a.1 = b.1 ∧ (a.2.1 < b.2.1 ∨
        (a.2.1 = b.2.1 ∧ cmpStr a.2.2 b.2.2 = .lt))) := by
  unfold cmpKey
  rw [Ordering.then_eq_lt, Ordering.then_eq_lt, cmpOf_eq_lt, cmpOf_eq_eq,
    cmpOf_eq_lt, cmpOf_eq_eq]

theorem cmpKey_swap (a b : ℕ × ℚ × String) : cmpKey a b = (cmpKey b a).swap := by
  unfold cmpKey
  rw [Ordering.then_swap, Ordering.then_swap, ← cmpOf_swap, ← cmpOf_swap,
    ← cmpStr_swap]

theorem cmpKey_lt_trans {a b c : ℕ × ℚ × String}
    (h₁ : cmpKey a b = .lt) (h₂ : cmpKey b c = .lt) : cmpKey a c = .lt := by
  rw [cmpKey_eq_lt] at h₁ h₂ ⊢
  rcases h₁ with h₁ | ⟨e₁, h₁⟩
  · rcases h₂ with h₂ | ⟨e₂, _⟩
    · exact Or.inl (h₁.trans h₂)
    · exact Or.inl (e₂ ▸ h₁)
  · rcases h₂ with h₂ | ⟨e₂, h₂⟩
    · exact Or.inl (e₁ ▸ h₂)
    · refine Or.inr ⟨e₁.trans e₂, ?_⟩
      rcases h₁ with h₁ | ⟨f₁, h₁⟩
      · rcases h₂ with h₂ | ⟨f₂, _⟩
        · exact Or.inl (h₁.trans h₂)
        · exact Or.inl (f₂ ▸ h₁)
      · rcases h₂ with h₂ | ⟨f₂, h₂⟩
        · exact Or.inl (f₁ ▸ h₂)
        · exact Or.inr ⟨f₁.trans f₂, cmpStr_lt_trans h₁ h₂⟩

theorem cmpEntry_eq_eq {e : OrderEntry} {a b : Row} :
    cmpEntry e a b = .eq ↔ entryKey e a = entryKey e b := by
  unfold cmpEntry
  cases e.dir
  · exact cmpKey_eq_eq
  · rw [cmpKey_eq_eq]
    exact eq_comm

theorem cmpEntry_swap (e : OrderEntry) (a b : Row) :
    cmpEntry e a b = (cmpEntry e b a).swap := by
  unfold cmpEntry
  cases e.dir
  · exact cmpKey_swap _ _
  · exact cmpKey_swap _ _

theorem cmpEntry_lt_trans {e : OrderEntry} {a b c : Row}
    (h₁ : cmpEntry e a b = .lt) (h₂ : cmpEntry e b c = .lt) :
    cmpEntry e a c = .lt := by
  obtain ⟨col, dir, nl⟩ := e
  cases dir <;> simp only [cmpEntry] at h₁ h₂ ⊢
  · exact cmpKey_lt_trans h₁ h₂
  · exact cmpKey_lt_trans h₂ h₁

theorem cmpEntry_congr_right {e : OrderEntry} {b c : Row}
    (h : entryKey e b = entryKey e c) (a : Row) :
    cmpEntry e a b = cmpEntry e a c := by
  unfold cmpEntry
  rw [h]

theorem cmpEntry_congr_left {e : OrderEntry} {a b : Row}
    (h : entryKey e a = entryKey e b) (c : Row) :
    cmpEntry e a c = cmpEntry e b c := by
  unfold cmpEntry
  rw [h]

theorem cmpRow_eq_eq {os : OrderSpec} {a b : Row} :
    cmpRow os a b = .eq ↔ rowKeys os a = rowKeys os b := by
  induction os with
  | nil => simp [cmpRow, rowKeys]
  | cons e es ih =>
    simp only [cmpRow, rowKeys, List.map_cons, Ordering.then_eq_eq,
      cmpEntry_eq_eq, List.cons.injEq]
    rw [ih]
    rfl

theorem cmpRow_refl (os : OrderSpec) (a : Row) : cmpRow os a a = .eq :=
  cmpRow_eq_eq.2 rfl

theorem cmpRow_swap (os : OrderSpec) (a b : Row) :
    cmpRow os a b = (cmpRow os b a).swap := by
  induction os with
  | nil => rfl
  | cons e es ih =>
    simp only [cmpRow, Ordering.then_swap, ← cmpEntry_swap, ← ih]

theorem cmpRow_congr_right {os : OrderSpec} {b c : Row}
    (h : cmpRow os b c = .eq) (a : Row) : cmpRow os a b = cmpRow os a c := by
  rw [cmpRow_eq_eq] at h
  induction os with
  | nil => rfl
  | cons e es ih =>
    simp only [rowKeys, List.map_cons, List.cons.injEq] at h
    simp only [cmpRow, ih h.2, cmpEntry_congr_right h.1]

theorem cmpRow_congr_left {os : OrderSpec} {a b : Row}
    (h : cmpRow os a b = .eq) (c : Row) : cmpRow os a c = cmpRow os b c := by
  rw [cmpRow_swap os a c, cmpRow_swap os b c]
  rw [cmpRow_congr_right h c]

theorem cmpRow_lt_trans {os : OrderSpec} {a b c : Row}
    (h₁ : cmpRow os a b = .lt) (h₂ : cmpRow os b c = .lt) :
    cmpRow os a c = .lt := by
  induction os with
  | nil => simp [cmpRow] at h₁
  | cons e es ih =>
    simp only [cmpRow, Ordering.then_eq_lt] at h₁ h₂ ⊢
    rcases h₁ with h₁ | ⟨e₁, h₁⟩
    · rcases h₂ with h₂ | ⟨e₂, _⟩
      · exact Or.inl (cmpEntry_lt_trans h₁ h₂)
      · refine Or.inl ?_
        rw [cmpEntry_eq_eq] at e₂
        rw [← cmpEntry_congr_right e₂ a]
        exact h₁
    · rcases h₂ with h₂ | ⟨e₂, h₂⟩
      · refine Or.inl ?_
        rw [cmpEntry_eq_eq] at e₁
        rw [cmpEntry_congr_left e₁ c]
        exact h₂
      · refine Or.inr ⟨?_, ih h₁ h₂⟩
        rw [cmpEntry_eq_eq] at e₁ e₂ ⊢
        exact e₁.trans e₂

theorem cmpRow_lt_of_lt_of_le {os : OrderSpec} {a b c : Row}
    (h₁ : cmpRow os a b = .lt) (h₂ : leRow os b c) : cmpRow os a c = .lt := by
  rcases hc : cmpRow os b c with h | h | h
  · exact cmpRow_lt_trans h₁ hc
  · rw [← cmpRow_congr_right hc a]
    exact h₁
  · exact absurd hc h₂

theorem cmpRow_lt_of_le_of_lt {os : OrderSpec} {a b c : Row}
    (h₁ : leRow os a b) (h₂ : cmpRow os b c = .lt) : cmpRow os a c = .lt := by
  rcases hc : cmpRow os a b with h | h | h
  · exact cmpRow_lt_trans hc h₂
  · rw [cmpRow_congr_left hc c]
    exact h₂
  · exact absurd hc h₁

theorem leRow_total (os : OrderSpec) (a b : Row) :
    leRow os a b ∨ leRow os b a := by
  unfold leRow
  rw [cmpRow_swap os b a]
  rcases cmpRow os a b <;> simp [Ordering.swap]

theorem leRow_trans {os : OrderSpec} {a b c : Row}
    (h₁ : leRow os a b) (h₂ : leRow os b c) : leRow os a c := by
  unfold leRow at *
  rcases hab : cmpRow os a b with h | h | h
  · rcases hbc : cmpRow os b c with h' | h' | h'
    · rw [cmpRow_lt_trans hab hbc]
      simp
    · rw [← cmpRow_congr_right hbc a, hab]
      simp
    · exact absurd hbc h₂
  · rw [cmpRow_congr_left hab c]
    exact h₂
  · exact absurd hab h₁

theorem leRow_of_lt {os : OrderSpec} {a b : Row} (h : cmpRow os a b = .lt) :
    leRow os a b := by
  unfold leRow
  rw [h]
  simp

theorem leRow_refl (os : OrderSpec) (a : Row) : leRow os a a := by
  unfold leRow
  rw [cmpRow_refl]
  simp

theorem lt_of_le_of_ne_eq {os : OrderSpec} {a b : Row}
    (h₁ : leRow os a b) (h₂ : cmpRow os a b ≠ .eq) : cmpRow os a b = .lt := by
  rcases h : cmpRow os a b with _ | _ | _
  · rfl
  · exact absurd h h₂
  · exact absurd h h₁

theorem cmpRow_eq_trans {os : OrderSpec} {a b c : Row}
    (h₁ : cmpRow os a b = .eq) (h₂ : cmpRow os b c = .eq) :
    cmpRow os a c = .eq := by
  rw [cmpRow_eq_eq] at *
  exact h₁.trans h₂

theorem getD_eq {α : Type} {l : List α} {n : ℕ} {d : α} (h : n < l.length) :
    l.getD n d = l[n] := by
  rw [List.getD_eq_getElem?_getD, List.getElem?_eq_getElem h]
  rfl

theorem perm_orderedInsert (os : OrderSpec) (a : Row) (l : List Row) :
    List.Perm (orderedInsert os a l) (a :: l) := by
  induction l with
  | nil => rfl
  | cons b bs ih =>
    unfold orderedInsert
    split
    · rfl
    · exact (List.Perm.cons b ih).trans (List.Perm.swap a b bs)

theorem perm_orderPartition (os : OrderSpec) (l : List Row) :
    List.Perm (orderPartition os l) l := by
  induction l with
  | nil => rfl
  | cons a as ih =>
    unfold orderPartition
    exact (perm_orderedInsert os a (orderPartition os as)).trans
      (List.Perm.cons a ih)

theorem mem_orderedInsert {os : OrderSpec} {a x : Row} {l : List Row} :
    x ∈ orderedInsert os a l ↔ x = a ∨ x ∈ l :=
  ((perm_orderedInsert os a l).mem_iff).trans (by simp)

theorem sorted_orderedInsert {os : OrderSpec} {a : Row} {l : List Row}
    (h : SortedRows os l) : SortedRows os (orderedInsert os a l) := by
  induction l with
  | nil => simp [orderedInsert, SortedRows]
  | cons b bs ih =>
    unfold orderedInsert
    rcases h with - | ⟨hb, hbs⟩
    split
    · rename_i hab
      refine List.Pairwise.cons ?_ (List.Pairwise.cons hb hbs)
      intro x hx
      rcases List.mem_cons.1 hx with rfl | hx'
      · exact hab
      · exact leRow_trans hab (hb x hx')
    · rename_i hab
      have hba : leRow os b a := (leRow_total os a b).resolve_left hab
      refine List.Pairwise.cons ?_ (ih hbs)
      intro x hx
      rcases mem_orderedInsert.1 hx with rfl | hx
      · exact hba
      · exact hb x hx

theorem sorted_orderPartition (os : OrderSpec) (l : List Row) :
    SortedRows os (orderPartition os l) := by
  induction l with
  | nil => exact List.Pairwise.nil
  | cons a as ih => exact sorted_orderedInsert ih

theorem length_orderPartition (os : OrderSpec) (l : List Row) :
    (orderPartition os l).length = l.length :=
  (perm_orderPartition os l).length_eq

theorem length_adjSteps (os : OrderSpec) (l : List Row) :
    (adjSteps os l).length = l.length - 1 := by
  simp [adjSteps]

theorem getElem_adjSteps {os : OrderSpec} {l : List Row} {k : ℕ}
    (h : k + 1 < l.length) :
    (adjSteps os l).getD k false =
      !isPeer os (l.getD k default) (l.getD (k + 1) default) := by
  have hk : k < (adjSteps os l).length := by
    rw [length_adjSteps]
    omega
  have hkz : k < (l.zip l.tail).length := by
    simpa [adjSteps] using hk
  have hkl : k < l.length := by omega
  have hkt : k < l.tail.length := by
    rw [List.length_tail]
    omega
  rw [getD_eq hk, getD_eq hkl, getD_eq h]
  unfold adjSteps
  rw [List.getElem_map]
  rw [List.getElem_zip]
  rw [List.getElem_tail]

theorem peerId_zero (os : OrderSpec) (l : List Row) : peerId os l 0 = 0 := rfl

theorem peerId_mono {os : OrderSpec} {l : List Row} {i j : ℕ} (h : i ≤ j) :
    peerId os l i ≤ peerId os l j := by
  unfold peerId
  rw [show j = i + (j - i) by omega, List.take_add, List.countP_append]
  exact Nat.le_add_right _ _

theorem peerId_succ {os : OrderSpec} {l : List Row} {i : ℕ} :
    peerId os l (i + 1) =
      peerId os l i + (if (adjSteps os l).getD i false then 1 else 0) := by
  unfold peerId
  rw [List.take_succ, List.countP_append, List.getD_eq_getElem?_getD]
  rcases h : (adjSteps os l)[i]? with _ | b
  · simp [h]
  · rcases b <;> simp [h, List.countP_cons]

theorem peerId_succ_le {os : OrderSpec} {l : List Row} {i : ℕ} :
    peerId os l (i + 1) ≤ peerId os l i + 1 := by
  rw [peerId_succ]
  split <;> omega

theorem peerId_succ_of_peer {os : OrderSpec} {l : List Row} {k : ℕ}
    (h : k + 1 < l.length)
    (hp : isPeer os (l.getD k default) (l.getD (k + 1) default) = true) :
    peerId os l (k + 1) = peerId os l k := by
  rw [peerId_succ, getElem_adjSteps h, hp]
  rfl

theorem peerId_succ_of_not_peer {os : OrderSpec} {l : List Row} {k : ℕ}
    (h : k + 1 < l.length)
    (hp : isPeer os (l.getD k default) (l.getD (k + 1) default) = false) :
    peerId os l (k + 1) = peerId os l k + 1 := by
  rw [peerId_succ, getElem_adjSteps h, hp]
  rfl

theorem peer_step_of_peerId_eq {os : OrderSpec} {l : List Row} {k : ℕ}
    (h : k + 1 < l.length) (he : peerId os l (k + 1) = peerId os l k) :
    cmpRow os (l.getD k default) (l.getD (k + 1) default) = .eq := by
  rcases hp : isPeer os (l.getD k default) (l.getD (k + 1) default)
  · rw [peerId_succ_of_not_peer h hp] at he
    omega
  · exact of_decide_eq_true hp

theorem peers_of_peerId_eq {os : OrderSpec} {l : List Row} {j i : ℕ}
    (hji : j ≤ i) (hi : i < l.length)
    (he : peerId os l j = peerId os l i) :
    cmpRow os (l.getD j default) (l.getD i default) = .eq := by
  induction i with
  | zero =>
    have : j = 0 := by omega
    subst this
    exact cmpRow_refl _ _
  | succ i ih =>
    rcases Nat.lt_or_ge j (i + 1) with hj | hj
    · have hj' : j ≤ i := by omega
      have h₁ : peerId os l j ≤ peerId os l i := peerId_mono hj'
      have h₂ : peerId os l i ≤ peerId os l (i + 1) := peerId_mono (by omega)
      have hei : peerId os l j = peerId os l i := by omega
      have hstep : peerId os l (i + 1) = peerId os l i := by omega
      exact cmpRow_eq_trans (ih (by omega) (by omega) hei)
        (peer_step_of_peerId_eq hi hstep)
    · have : j = i + 1 := by omega
      subst this
      exact cmpRow_refl _ _

theorem exists_boundary_of_peerId_lt {os : OrderSpec} {l : List Row} {j i : ℕ}
    (hji : j ≤ i) (hlt : peerId os l j < peerId os l i) :
    ∃ k, j ≤ k ∧ k + 1 ≤ i ∧ k + 1 < l.length ∧
      (adjSteps os l).getD k false = true := by
  have hij₀ : j + (i - j) = i := by omega
  have hsplit : peerId os l i =
      peerId os l j + ((adjSteps os l).drop j |>.take (i - j)).countP id := by
    unfold peerId
    conv_lhs => rw [← hij₀]
    rw [List.take_add, List.countP_append]
  have hpos : 0 < ((adjSteps os l).drop j |>.take (i - j)).countP id := by
    omega
  rw [List.countP_pos_iff] at hpos
  obtain ⟨b, hb, hbt⟩ := hpos
  rw [List.mem_iff_getElem] at hb
  obtain ⟨m, hm, hbm⟩ := hb
  have hm₁ : m < i - j := by
    have := hm
    simp only [List.length_take, List.length_drop] at this
    omega
  have hm₂ : j + m < (adjSteps os l).length := by
    have := hm
    simp only [List.length_take, List.length_drop] at this
    omega
  refine ⟨j + m, by omega, by omega, ?_, ?_⟩
  · rw [length_adjSteps] at hm₂
    omega
  · rw [getD_eq hm₂]
    have : ((adjSteps os l).drop j |>.take (i - j))[m] = (adjSteps os l)[j + m] := by
      rw [List.getElem_take, List.getElem_drop]
    rw [← this, hbm]
    simpa using hbt

theorem leRow_of_index_le {os : OrderSpec} {l : List Row} {i j : ℕ}
    (hs : SortedRows os l) (hij : i ≤ j) (hj : j < l.length) :
    leRow os (l.getD i default) (l.getD j default) := by
  rcases Nat.lt_or_ge i j with h | h
  · have hi : i < l.length := by omega
    rw [getD_eq hi, getD_eq hj]
    exact List.pairwise_iff_getElem.1 hs i j hi hj h
  · have : i = j := by omega
    subst this
    exact leRow_refl _ _

theorem lt_of_peerId_lt {os : OrderSpec} {l : List Row} {j i : ℕ}
    (hs : SortedRows os l) (hi : i < l.length)
    (hlt : peerId os l j < peerId os l i) :
    cmpRow os (l.getD j default) (l.getD i default) = .lt := by
  have hji : j < i := by
    by_contra hcon
    have hmono : peerId os l i ≤ peerId os l j := peerId_mono (by omega)
    omega
  obtain ⟨k, hjk, hki, hkl, hflag⟩ :=
    exists_boundary_of_peerId_lt (by omega : j ≤ i) hlt
  have hstep : cmpRow os (l.getD k default) (l.getD (k + 1) default) = .lt := by
    apply lt_of_le_of_ne_eq
    · exact leRow_of_index_le hs (by omega) hkl
    · intro hc
      rw [getElem_adjSteps hkl] at hflag
      unfold isPeer at hflag
      rw [hc] at hflag
      simp at hflag
  have h₁ : leRow os (l.getD j default) (l.getD k default) :=
    leRow_of_index_le hs hjk (by omega)
  have h₂ : leRow os (l.getD (k + 1) default) (l.getD i default) :=
    leRow_of_index_le hs hki hi
  exact cmpRow_lt_of_lt_of_le (cmpRow_lt_of_le_of_lt h₁ hstep) h₂

theorem peerId_lt_iff {os : OrderSpec} {l : List Row} {j i : ℕ}
    (hs : SortedRows os l) (hj : j < l.length) (hi : i < l.length) :
    peerId os l j < peerId os l i ↔
      cmpRow os (l.getD j default) (l.getD i default) = .lt := by
  constructor
  · exact lt_of_peerId_lt hs hi
  · intro hlt
    have hji : j < i := by
      rcases Nat.lt_trichotomy j i with h | h | h
      · exact h
      · subst h
        rw [cmpRow_refl] at hlt
        exact absurd hlt (by simp)
      · have hle : leRow os (l.getD i default) (l.getD j default) :=
          leRow_of_index_le hs (by omega) hj
        rw [cmpRow_swap] at hlt
        rcases hc : cmpRow os (l.getD i default) (l.getD j default) with
          _ | _ | _ <;> rw [hc] at hlt
        · exact absurd hlt (by simp [Ordering.swap])
        · exact absurd hlt (by simp [Ordering.swap])
        · exact absurd hc hle
    have hle : peerId os l j ≤ peerId os l i := peerId_mono (by omega)
    rcases Nat.lt_or_ge (peerId os l j) (peerId os l i) with h | h
    · exact h
    · have he : peerId os l j = peerId os l i := by omega
      have := peers_of_peerId_eq (by omega : j ≤ i) hi he
      rw [this] at hlt
      exact absurd hlt (by simp)

theorem length_idsList (os : OrderSpec) (l : List Row) :
    (idsList os l).length = l.length := by
  simp [idsList]

theorem getD_idsList {os : OrderSpec} {l : List Row} {i : ℕ}
    (h : i < l.length) : (idsList os l).getD i 0 = peerId os l i := by
  have h' : i < (idsList os l).length := by
    rw [length_idsList]
    exact h
  rw [getD_eq h']
  unfold idsList
  rw [List.getElem_map, List.getElem_range]

theorem peerId_mem_idsList {os : OrderSpec} {l : List Row} {i : ℕ}
    (h : i < l.length) : peerId os l i ∈ idsList os l := by
  unfold idsList
  exact List.mem_map.2 ⟨i, List.mem_range.2 h, rfl⟩

theorem rankAt_pos (os : OrderSpec) (l : List Row) (i : ℕ) :
    1 ≤ rankAt os l i := by
  unfold rankAt
  omega

theorem rankAt_mono {os : OrderSpec} {l : List Row} {i j : ℕ} (h : i ≤ j) :
    rankAt os l i ≤ rankAt os l j := by
  unfold rankAt
  have hp : peerId os l i ≤ peerId os l j := peerId_mono h
  have hcount : (idsList os l).countP (fun v => decide (v < peerId os l i)) ≤
      (idsList os l).countP (fun v => decide (v < peerId os l j)) := by
    apply List.countP_mono_left
    intro v _ hv
    rw [decide_eq_true_eq] at *
    omega
  omega

theorem rankAt_le_length {os : OrderSpec} {l : List Row} {i : ℕ}
    (h : i < l.length) : rankAt os l i ≤ l.length := by
  have hmem : peerId os l i ∈ idsList os l := peerId_mem_idsList h
  have hle : (idsList os l).countP (fun v => decide (v < peerId os l i)) ≤
      (idsList os l).length := List.countP_le_length _
  have hne : (idsList os l).countP (fun v => decide (v < peerId os l i)) ≠
      (idsList os l).length := by
    intro heq
    have := List.countP_eq_length.1 heq _ hmem
    rw [decide_eq_true_eq] at this
    omega
  have hlen := length_idsList os l
  unfold rankAt
  omega

theorem countP_nat_lt_succ (xs : List ℕ) (v : ℕ) :
    xs.countP (fun x => decide (x < v + 1)) =
      xs.countP (fun x => decide (x < v)) +
        xs.countP (fun x => decide (x = v)) := by
  induction xs with
  | nil => rfl
  | cons x xs ih =>
    simp only [List.countP_cons, ih]
    by_cases h1 : x < v
    · have h2 : x < v + 1 := by omega
      have h3 : ¬(x = v) := by omega
      simp [h1, h2, h3]
      omega
    · by_cases h2 : x = v
      · have h3 : x < v + 1 := by omega
        simp [h1, h2, h3]
        omega
      · have h3 : ¬(x < v + 1) := by omega
        simp [h1, h2, h3]

theorem rankAt_gap {os : OrderSpec} {l : List Row} {i j : ℕ}
    (hnext : peerId os l j = peerId os l i + 1) :
    rankAt os l j = rankAt os l i +
      (idsList os l).countP (fun v => decide (v = peerId os l i)) := by
  unfold rankAt
  rw [hnext, countP_nat_lt_succ]
  omega

theorem exists_peerId_eq {os : OrderSpec} {l : List Row} {i w : ℕ}
    (hw : w ≤ peerId os l i) : ∃ j, j ≤ i ∧ peerId os l j = w := by
  induction i with
  | zero =>
    have h0 : peerId os l 0 = 0 := peerId_zero os l
    exact ⟨0, Nat.le_refl 0, by omega⟩
  | succ i ih =>
    by_cases h : w ≤ peerId os l i
    · obtain ⟨j, hj, he⟩ := ih h
      exact ⟨j, by omega, he⟩
    · have h1 : peerId os l (i + 1) ≤ peerId os l i + 1 := peerId_succ_le
      exact ⟨i + 1, Nat.le_refl _, by omega⟩

theorem mem_idsList_of_le {os : OrderSpec} {l : List Row} {i w : ℕ}
    (hi : i < l.length) (hw : w ≤ peerId os l i) : w ∈ idsList os l := by
  obtain ⟨j, hj, he⟩ := exists_peerId_eq hw
  rw [← he]
  exact peerId_mem_idsList (by omega)

theorem denseRankAt_eq_peerId {os : OrderSpec} {l : List Row} {i : ℕ}
    (hi : i < l.length) : denseRankAt os l i = peerId os l i + 1 := by
  unfold denseRankAt
  have hfin : ((idsList os l).filter
      (fun v => decide (v < peerId os l i))).toFinset =
      Finset.range (peerId os l i) := by
    ext w
    simp only [List.mem_toFinset, List.mem_filter, Finset.mem_range,
      decide_eq_true_eq]
    constructor
    · rintro ⟨-, hw⟩
      exact hw
    · intro hw
      exact ⟨mem_idsList_of_le hi (le_of_lt hw), hw⟩
  have hcard := List.card_toFinset
    ((idsList os l).filter (fun v => decide (v < peerId os l i)))
  rw [hfin, Finset.card_range] at hcard
  omega

theorem denseRankAt_le_dedup {os : OrderSpec} {l : List Row} {i : ℕ}
    (hi : i < l.length) :
    denseRankAt os l i ≤ ((idsList os l).dedup).length := by
  rw [denseRankAt_eq_peerId hi]
  have hsub : Finset.range (peerId os l i + 1) ⊆ (idsList os l).toFinset := by
    intro w hw
    rw [Finset.mem_range] at hw
    rw [List.mem_toFinset]
    exact mem_idsList_of_le hi (by omega)
  have hcard := Finset.card_le_card hsub
  rw [Finset.card_range] at hcard
  have := List.card_toFinset (idsList os l)
  omega

theorem evalRowCalls_ok_mem {os : OrderSpec} {fs : FrameSpec} {l : List Row}
    {i : ℕ} :
    ∀ {cs : List FunctionCall} {vs}, evalRowCalls os fs l i cs = .ok vs →
      ∀ c ∈ cs, ∃ v, evalCall os fs l i c.kind = .ok v := by
  intro cs
  induction cs with
  | nil =>
    intro vs h c hc
    exact absurd hc (List.not_mem_nil c)
  | cons c₀ cs ih =>
    intro vs h c hc
    unfold evalRowCalls at h
    split at h
    · exact Except.noConfusion h
    · rename_i v₀ h₁
      split at h
      · exact Except.noConfusion h
      · rename_i rest h₂
        rcases List.mem_cons.1 hc with rfl | hc'
        · exact ⟨v₀, h₁⟩
        · exact ih h₂ c hc'

theorem evalIndices_ok_mem {os : OrderSpec} {fs : FrameSpec} {l : List Row}
    {calls : List FunctionCall} :
    ∀ {is : List ℕ} {rs}, evalIndices os fs l calls is = .ok rs →
      ∀ i ∈ is, ∃ added, evalRowCalls os fs l i calls = .ok added := by
  intro is
  induction is with
  | nil =>
    intro rs h i hi
    exact absurd hi (List.not_mem_nil i)
  | cons i₀ is ih =>
    intro rs h i hi
    unfold evalIndices at h
    split at h
    · exact Except.noConfusion h
    · rename_i added h₁
      split at h
      · exact Except.noConfusion h
      · rename_i rest h₂
        rcases List.mem_cons.1 hi with rfl | hi'
        · exact ⟨added, h₁⟩
        · exact ih h₂ i hi'

theorem evalIndices_ok_getD {os : OrderSpec} {fs : FrameSpec} {l : List Row}
    {calls : List FunctionCall} :
    ∀ {is : List ℕ} {rs}, evalIndices os fs l calls is = .ok rs →
      ∀ k, k < is.length →
        ∃ added, evalRowCalls os fs l (is.getD k 0) calls = .ok added ∧
          rs.getD k default = ⟨added ++ (l.getD (is.getD k 0) default).cols⟩ := by
  intro is
  induction is with
  | nil =>
    intro rs h k hk
    exact absurd hk (by simp)
  | cons i₀ is ih =>
    intro rs h k hk
    unfold evalIndices at h
    split at h
    · exact Except.noConfusion h
    · rename_i added h₁
      split at h
      · exact Except.noConfusion h
      · rename_i rest h₂
        cases h
        cases k with
        | zero => exact ⟨added, h₁, rfl⟩
        | succ k =>
          have hk' : k < is.length := by
            simpa using hk
          obtain ⟨added', ha, hb⟩ := ih h₂ k hk'
          refine ⟨added', ?_, ?_⟩
          · simpa using ha
          · simpa using hb

theorem evalParts_ok_mem {os : OrderSpec} {fs : FrameSpec}
    {calls : List FunctionCall} :
    ∀ {ps : List (List Row)} {out}, evalParts os fs calls ps = .ok out →
      ∀ p ∈ ps, ∃ o, evaluatePartition os fs calls p = .ok o := by
  intro ps
  induction ps with
  | nil =>
    intro out h p hp
    exact absurd hp (List.not_mem_nil p)
  | cons p₀ ps ih =>
    intro out h p hp
    unfold evalParts at h
    split at h
    · exact Except.noConfusion h
    · rename_i o₀ h₁
      split at h
      · exact Except.noConfusion h
      · rename_i rest h₂
        rcases List.mem_cons.1 hp with rfl | hp'
        · exact ⟨o₀, h₁⟩
        · exact ih h₂ p hp'

theorem Evaluate_ok_evalCall {rows : List Row} {ws : WindowSpec}
    {calls : List FunctionCall} {out : List Row} {p : List Row} {i : ℕ}
    {c : FunctionCall}
    (h : Evaluate rows ws calls = .ok out)
    (hp : p ∈ partitionBy ws.partitionKey rows)
    (hi : i < (orderPartition ws.orderSpec p).length)
    (hc : c ∈ calls) :
    ∃ v, evalCall ws.orderSpec ws.frameSpec (orderPartition ws.orderSpec p) i
      c.kind = .ok v := by
  unfold Evaluate at h
  split at h
  · exact Except.noConfusion h
  · obtain ⟨o, ho⟩ := evalParts_ok_mem h p hp
    unfold evaluatePartition at ho
    obtain ⟨added, ha⟩ := evalIndices_ok_mem ho i (List.mem_range.2 hi)
    exact evalRowCalls_ok_mem ha c hc

theorem Row.get_mk_cons {out : String} {v : Value}
    {cols : List (String × Value)} : Row.get ⟨(out, v) :: cols⟩ out = v := by
  unfold Row.get Row.find?
  simp [List.find?]

theorem mkFrame_ok {lo hi : ℤ} (h : lo ≤ hi) :
    mkFrame lo hi = .ok ⟨lo.toNat, hi.toNat⟩ := by
  unfold mkFrame
  rw [if_pos h]

theorem mkFrame_error_iff {lo hi : ℤ} :
    mkFrame lo hi = .error .invalidFrame ↔ hi < lo := by
  unfold mkFrame
  split
  · rename_i h
    simp only [reduceCtorEq, false_iff, not_lt]
    exact h
  · rename_i h
    constructor
    · intro
      omega
    · intro
      rfl

theorem groupStop_pos {os : OrderSpec} {l : List Row} {i : ℕ}
    (hi : i < l.length) : 0 < groupStop os l i := by
  unfold groupStop
  rw [List.countP_pos_iff]
  exact ⟨peerId os l i, peerId_mem_idsList hi, by simp⟩

theorem groupStop_le_length (os : OrderSpec) (l : List Row) (i : ℕ) :
    groupStop os l i ≤ l.length := by
  unfold groupStop
  have h : (idsList os l).countP (fun v => decide (v ≤ peerId os l i)) ≤
      (idsList os l).length := List.countP_le_length _
  have := length_idsList os l
  omega

theorem countP_range_lt (n j : ℕ) :
    (List.range n).countP (fun k => decide (k < j)) = min n j := by
  induction n with
  | zero => simp
  | succ n ih =>
    rw [List.range_succ, List.countP_append, ih]
    by_cases h : n < j
    · simp [List.countP_cons, h]
      omega
    · simp [List.countP_cons, h]
      omega

theorem countP_idsList (os : OrderSpec) (l : List Row) (p : ℕ → Bool) :
    (idsList os l).countP p =
      (List.range l.length).countP (fun k => p (peerId os l k)) := by
  unfold idsList
  rw [List.countP_map]
  rfl

theorem lt_groupStop_iff {os : OrderSpec} {l : List Row} {i j : ℕ}
    (hi : i < l.length) (hj : j < l.length) :
    j < groupStop os l i ↔ peerId os l j ≤ peerId os l i := by
  constructor
  · intro h
    by_contra hcon
    have hji : peerId os l i < peerId os l j := by omega
    have hbound : ∀ k ∈ List.range l.length,
        (fun k => decide (peerId os l k ≤ peerId os l i)) k = true →
        (fun k => decide (k < j)) k = true := by
      intro k _ hdec
      rw [decide_eq_true_eq] at *
      by_contra hkj
      have : peerId os l j ≤ peerId os l k := peerId_mono (by omega)
      omega
    have hmono := List.countP_mono_left hbound
    have hr := countP_range_lt l.length j
    have hgs : groupStop os l i ≤ j := by
      unfold groupStop
      rw [countP_idsList]
      omega
    omega
  · intro h
    have hall : ∀ k ∈ List.range l.length,
        (fun k => decide (k < j + 1)) k = true →
        (fun k => decide (peerId os l k ≤ peerId os l i)) k = true := by
      intro k _ hdec
      rw [decide_eq_true_eq] at *
      have h2 : peerId os l k ≤ peerId os l j := peerId_mono (by omega)
      omega
    have hge := List.countP_mono_left hall
    have hr := countP_range_lt l.length (j + 1)
    unfold groupStop
    rw [countP_idsList]
    omega

theorem groupStop_last_peer {os : OrderSpec} {l : List Row} {i : ℕ}
    (hi : i < l.length) :
    i < groupStop os l i ∧ groupStop os l i - 1 < l.length ∧
      peerId os l (groupStop os l i - 1) = peerId os l i := by
  have hpos : 0 < groupStop os l i := groupStop_pos hi
  have hlen : groupStop os l i ≤ l.length := groupStop_le_length os l i
  have hii : i < groupStop os l i := (lt_groupStop_iff hi hi).2 (le_refl _)
  have hg1 : groupStop os l i - 1 < l.length := by omega
  have hle : peerId os l (groupStop os l i - 1) ≤ peerId os l i :=
    (lt_groupStop_iff hi hg1).1 (by omega)
  have hge : peerId os l i ≤ peerId os l (groupStop os l i - 1) :=
    peerId_mono (by omega)
  exact ⟨hii, hg1, by omega⟩

theorem peerId_lt_of_groupStop_le {os : OrderSpec} {l : List Row} {i j : ℕ}
    (hi : i < l.length) (hj : j < l.length)
    (hgj : groupStop os l i ≤ j) : peerId os l i < peerId os l j := by
  have hiff : j < groupStop os l i ↔ peerId os l j ≤ peerId os l i :=
    lt_groupStop_iff hi hj
  have hnot : ¬(peerId os l j ≤ peerId os l i) := by
    intro hc
    have := hiff.2 hc
    omega
  omega

theorem self_eq_range_map {α : Type} (l : List α) (d : α) :
    l = (List.range l.length).map (fun k => l.getD k d) := by
  apply List.ext_getElem
  · simp
  · intro k h1 h2
    simp only [List.getElem_map, List.getElem_range]
    rw [getD_eq h1]

theorem countP_range_eq {α : Type} (l : List α) (d : α) (q : ℕ → Bool)
    (p : α → Bool) (h : ∀ k, k < l.length → q k = p (l.getD k d)) :
    (List.range l.length).countP q = l.countP p := by
  conv_rhs => rw [self_eq_range_map l d]
  rw [List.countP_map]
  apply List.countP_congr
  intro k hk
  rw [List.mem_range] at hk
  rw [h k hk]
  exact Iff.rfl

theorem getD_mem {α : Type} {l : List α} {k : ℕ} {d : α} (h : k < l.length) :
    l.getD k d ∈ l := by
  rw [getD_eq h]
  exact List.getElem_mem h

theorem rankAt_eq_global {os : OrderSpec} {l : List Row} {i : ℕ}
    (hs : SortedRows os l) (hi : i < l.length) :
    rankAt os l i = 1 + l.countP
      (fun x => decide (cmpRow os x (l.getD i default) = .lt)) := by
  unfold rankAt
  congr 1
  rw [countP_idsList]
  apply countP_range_eq l default
  intro k hk
  exact decide_eq_decide.2 (peerId_lt_iff hs hk hi)

theorem rankCol_eq_map {os : OrderSpec} {l : List Row} (hs : SortedRows os l) :
    rankCol os l = l.map
      (fun r => 1 + l.countP (fun x => decide (cmpRow os x r = .lt))) := by
  apply List.ext_getElem
  · simp [rankCol]
  · intro k h1 h2
    have hk : k < l.length := by
      simpa [rankCol] using h1
    simp only [rankCol, List.getElem_map, List.getElem_range]
    rw [rankAt_eq_global hs hk, getD_eq hk]

theorem zip_self_map {α β : Type} (l : List α) (g : α → β) :
    l.zip (l.map g) = l.map (fun a => (a, g a)) := by
  have h := List.zip_map' id g l
  simpa using h

theorem rank_tagged_perm {os : OrderSpec} {p l₁ l₂ : List Row}
    (h₁ : List.Perm l₁ p) (h₂ : List.Perm l₂ p)
    (hs₁ : SortedRows os l₁) (hs₂ : SortedRows os l₂) :
    List.Perm (l₁.zip (rankCol os l₁)) (l₂.zip (rankCol os l₂)) := by
  rw [rankCol_eq_map hs₁, rankCol_eq_map hs₂, zip_self_map, zip_self_map]
  have hp : List.Perm l₁ l₂ := h₁.trans h₂.symm
  have hfun : (fun r : Row => (r, 1 + l₁.countP
        (fun x => decide (cmpRow os x r = .lt)))) =
      (fun r : Row => (r, 1 + l₂.countP
        (fun x => decide (cmpRow os x r = .lt)))) := by
    funext r
    rw [hp.countP_eq]
  rw [hfun]
  exact hp.map _

theorem filter_lt_head_nil {os : OrderSpec} {l : List Row}
    (hs : SortedRows os l) (h0 : 0 < l.length) :
    l.filter (fun x => decide (cmpRow os x (l.getD 0 default) = .lt)) = [] := by
  rw [List.filter_eq_nil_iff]
  intro x hx
  rw [List.mem_iff_getElem] at hx
  obtain ⟨px, hpx, rfl⟩ := hx
  have hle : leRow os (l.getD 0 default) (l.getD px default) :=
    leRow_of_index_le hs (by omega) hpx
  rw [getD_eq hpx] at hle
  simp only [decide_eq_true_eq]
  intro hlt
  rw [cmpRow_swap] at hlt
  rcases hc : cmpRow os (l.getD 0 default) l[px] with _ | _ | _ <;>
    rw [hc] at hlt
  · exact absurd hlt (by simp [Ordering.swap])
  · exact absurd hlt (by simp [Ordering.swap])
  · exact absurd hc hle

theorem lt_succ_iff_lt_or_peer {os : OrderSpec} {l : List Row} {i : ℕ}
    (hs : SortedRows os l) (hi1 : i + 1 < l.length) {x : Row} (hx : x ∈ l)
    (hlt : cmpRow os x (l.getD (i + 1) default) = .lt) :
    cmpRow os x (l.getD i default) = .lt ∨
      cmpRow os x (l.getD i default) = .eq := by
  rcases hc : cmpRow os x (l.getD i default) with _ | _ | _
  · exact Or.inl rfl
  · exact Or.inr rfl
  · exfalso
    rw [List.mem_iff_getElem] at hx
    obtain ⟨px, hpx, rfl⟩ := hx
    rcases Nat.lt_or_ge px (i + 1) with hcase | hcase
    · have hle : leRow os (l.getD px default) (l.getD i default) :=
        leRow_of_index_le hs (by omega) (by omega)
      rw [getD_eq hpx] at hle
      exact absurd hc hle
    · have hle : leRow os (l.getD (i + 1) default) (l.getD px default) :=
        leRow_of_index_le hs (by omega) hpx
      rw [getD_eq hpx] at hle
      rw [cmpRow_swap] at hlt
      rcases hd : cmpRow os (l.getD (i + 1) default) l[px] with _ | _ | _ <;>
        rw [hd] at hlt
      · exact absurd hlt (by simp [Ordering.swap])
      · exact absurd hlt (by simp [Ordering.swap])
      · exact absurd hd hle

theorem peerId_eq_keysBelow_card {os : OrderSpec} {l : List Row}
    (hs : SortedRows os l) :
    ∀ i, i < l.length → peerId os l i =
      ((l.filter (fun x => decide (cmpRow os x (l.getD i default) = .lt))).map
        (rowKeys os)).toFinset.card := by
  intro i
  induction i with
  | zero =>
    intro hi
    rw [peerId_zero, filter_lt_head_nil hs hi]
    simp
  | succ i ih =>
    intro hi
    have hi' : i < l.length := by omega
    rcases hp : isPeer os (l.getD i default) (l.getD (i + 1) default)
    · have heq : cmpRow os (l.getD i default) (l.getD (i + 1) default) = .lt := by
        apply lt_of_le_of_ne_eq
        · exact leRow_of_index_le hs (by omega) hi
        · intro hc
          unfold isPeer at hp
          rw [hc] at hp
          simp at hp
      have hstep : peerId os l (i + 1) = peerId os l i + 1 :=
        peerId_succ_of_not_peer hi hp
      have hins : ((l.filter (fun x =>
            decide (cmpRow os x (l.getD (i + 1) default) = .lt))).map
            (rowKeys os)).toFinset =
          insert (rowKeys os (l.getD i default))
            ((l.filter (fun x =>
              decide (cmpRow os x (l.getD i default) = .lt))).map
              (rowKeys os)).toFinset := by
        ext k
        simp only [List.mem_toFinset, List.mem_map, List.mem_filter,
          Finset.mem_insert, decide_eq_true_eq]
        constructor
        · rintro ⟨x, ⟨hxl, hxlt⟩, rfl⟩
          rcases lt_succ_iff_lt_or_peer hs hi hxl hxlt with hcx | hcx
          · exact Or.inr ⟨x, ⟨hxl, hcx⟩, rfl⟩
          · rw [cmpRow_eq_eq] at hcx
            exact Or.inl hcx
        · rintro (rfl | ⟨x, ⟨hxl, hxlt⟩, rfl⟩)
          · exact ⟨l.getD i default, ⟨getD_mem hi', heq⟩, rfl⟩
          · exact ⟨x, ⟨hxl, cmpRow_lt_trans hxlt heq⟩, rfl⟩
      have hnot : rowKeys os (l.getD i default) ∉
          ((l.filter (fun x =>
            decide (cmpRow os x (l.getD i default) = .lt))).map
            (rowKeys os)).toFinset := by
        simp only [List.mem_toFinset, List.mem_map, List.mem_filter,
          decide_eq_true_eq]
        rintro ⟨x, ⟨hxl, hxlt⟩, hk⟩
        have : cmpRow os x (l.getD i default) = .eq := cmpRow_eq_eq.2 hk
        rw [this] at hxlt
        exact absurd hxlt (by simp)
      rw [hstep, hins, Finset.card_insert_of_not_mem hnot, ih hi']
    · have hpeq : cmpRow os (l.getD i default) (l.getD (i + 1) default) = .eq := by
        unfold isPeer at hp
        exact of_decide_eq_true hp
      have hstep : peerId os l (i + 1) = peerId os l i :=
        peerId_succ_of_peer hi hp
      have hfeq : l.filter (fun x =>
            decide (cmpRow os x (l.getD (i + 1) default) = .lt)) =
          l.filter (fun x =>
            decide (cmpRow os x (l.getD i default) = .lt)) := by
        apply List.filter_congr
        intro x hx
        rw [cmpRow_congr_right hpeq x]
      rw [hstep, hfeq, ih hi']

theorem denseRankAt_eq_global {os : OrderSpec} {l : List Row} {i : ℕ}
    (hs : SortedRows os l) (hi : i < l.length) :
    denseRankAt os l i = 1 +
      ((l.filter (fun x => decide (cmpRow os x (l.getD i default) = .lt))).map
        (rowKeys os)).toFinset.card := by
  rw [denseRankAt_eq_peerId hi, peerId_eq_keysBelow_card hs i hi]
  omega

theorem denseRankCol_eq_map {os : OrderSpec} {l : List Row}
    (hs : SortedRows os l) :
    denseRankCol os l = l.map (fun r => 1 +
      ((l.filter (fun x => decide (cmpRow os x r = .lt))).map
        (rowKeys os)).toFinset.card) := by
  apply List.ext_getElem
  · simp [denseRankCol]
  · intro k h1 h2
    have hk : k < l.length := by
      simpa [denseRankCol] using h1
    simp only [denseRankCol, List.getElem_map, List.getElem_range]
    rw [denseRankAt_eq_global hs hk, getD_eq hk]

theorem dense_tagged_perm {os : OrderSpec} {p l₁ l₂ : List Row}
    (h₁ : List.Perm l₁ p) (h₂ : List.Perm l₂ p)
    (hs₁ : SortedRows os l₁) (hs₂ : SortedRows os l₂) :
    List.Perm (l₁.zip (denseRankCol os l₁)) (l₂.zip (denseRankCol os l₂)) := by
  rw [denseRankCol_eq_map hs₁, denseRankCol_eq_map hs₂, zip_self_map,
    zip_self_map]
  have hp : List.Perm l₁ l₂ := h₁.trans h₂.symm
  have hfun : (fun r : Row => (r, 1 +
        ((l₁.filter (fun x => decide (cmpRow os x r = .lt))).map
          (rowKeys os)).toFinset.card)) =
      (fun r : Row => (r, 1 +
        ((l₂.filter (fun x => decide (cmpRow os x r = .lt))).map
          (rowKeys os)).toFinset.card)) := by
    funext r
    have hpf : List.Perm
        (l₁.filter (fun x => decide (cmpRow os x r = .lt)))
        (l₂.filter (fun x => decide (cmpRow os x r = .lt))) := hp.filter _
    have := List.toFinset_eq_of_perm _ _ (hpf.map (rowKeys os))
    rw [this]
  rw [hfun]
  exact hp.map _

theorem percentRankAt_eq_global {os : OrderSpec} {l : List Row} {i : ℕ}
    (hs : SortedRows os l) (hi : i < l.length) :
    percentRankAt os l i = if l.length = 1 then 0 else
      mkRat ((l.countP
        (fun x => decide (cmpRow os x (l.getD i default) = .lt)) : ℤ))
        (l.length - 1) := by
  unfold percentRankAt
  rw [rankAt_eq_global hs hi]
  split
  · rfl
  · congr 1
    push_cast
    ring

theorem percentRankCol_eq_map {os : OrderSpec} {l : List Row}
    (hs : SortedRows os l) :
    percentRankCol os l = l.map (fun r => if l.length = 1 then (0 : ℚ) else
      mkRat ((l.countP (fun x => decide (cmpRow os x r = .lt)) : ℤ))
        (l.length - 1)) := by
  apply List.ext_getElem
  · simp [percentRankCol]
  · intro k h1 h2
    have hk : k < l.length := by
      simpa [percentRankCol] using h1
    simp only [percentRankCol, List.getElem_map, List.getElem_range]
    rw [percentRankAt_eq_global hs hk, getD_eq hk]

theorem percent_tagged_perm {os : OrderSpec} {p l₁ l₂ : List Row}
    (h₁ : List.Perm l₁ p) (h₂ : List.Perm l₂ p)
    (hs₁ : SortedRows os l₁) (hs₂ : SortedRows os l₂) :
    List.Perm (l₁.zip (percentRankCol os l₁))
      (l₂.zip (percentRankCol os l₂)) := by
  rw [percentRankCol_eq_map hs₁, percentRankCol_eq_map hs₂, zip_self_map,
    zip_self_map]
  have hp : List.Perm l₁ l₂ := h₁.trans h₂.symm
  have hlen : l₁.length = l₂.length := hp.length_eq
  have hfun : (fun r : Row => (r, if l₁.length = 1 then (0 : ℚ) else
        mkRat ((l₁.countP (fun x => decide (cmpRow os x r = .lt)) : ℤ))
          (l₁.length - 1))) =
      (fun r : Row => (r, if l₂.length = 1 then (0 : ℚ) else
        mkRat ((l₂.countP (fun x => decide (cmpRow os x r = .lt)) : ℤ))
          (l₂.length - 1))) := by
    funext r
    rw [hp.countP_eq, hlen]
  rw [hfun]
  exact hp.map _

theorem rowNumberCol_eq_range' (l : List Row) :
    rowNumberCol l = List.range' 1 l.length := by
  apply List.ext_getElem
  · simp [rowNumberCol]
  · intro k h1 h2
    have hk : k < l.length := by
      simpa [rowNumberCol] using h1
    simp only [rowNumberCol, List.getElem_map, List.getElem_range,
      List.getElem_range']
    unfold rowNumberAt
    simp only [List.length_take]
    omega

theorem resolveFrame_no_offset {os : OrderSpec} {l : List Row} {fs : FrameSpec}
    {i : ℕ} (h : ¬(fs.unit = .range ∧ (numOffset fs.lo ∨ numOffset fs.hi))) :
    resolveFrame os l fs i =
      mkFrame (frameLowIdx os l fs i) (frameHighIdx os l fs i) := by
  unfold resolveFrame
  rw [if_neg h]

theorem resolveFrame_defaultFrame {os : OrderSpec} {l : List Row} {i : ℕ}
    (hos : os ≠ []) (hi : i < l.length) :
    resolveFrame os l (defaultFrame os) i =
      .ok ⟨0, groupStop os l i - 1⟩ := by
  obtain ⟨e, es, rfl⟩ : ∃ e es, os = e :: es := by
    cases os with
    | nil => exact absurd rfl hos
    | cons e es => exact ⟨e, es, rfl⟩
  have hpos : 0 < groupStop (e :: es) l i := groupStop_pos hi
  have hdf : defaultFrame (e :: es) =
      ⟨.range, .unboundedPreceding, .currentRow⟩ := rfl
  rw [hdf, resolveFrame_no_offset (by simp [numOffset])]
  have hlo : frameLowIdx (e :: es) l
      ⟨.range, .unboundedPreceding, .currentRow⟩ i = 0 := rfl
  have hhi : frameHighIdx (e :: es) l
      ⟨.range, .unboundedPreceding, .currentRow⟩ i =
      (groupStop (e :: es) l i : ℤ) - 1 := rfl
  rw [hlo, hhi, mkFrame_ok (by omega)]
  have h1 : ((groupStop (e :: es) l i : ℤ) - 1).toNat =
      groupStop (e :: es) l i - 1 := by omega
  rw [h1]
  rfl

theorem resolveFrame_unbounded (os : OrderSpec) (l : List Row) (i : ℕ)
    (hn : 0 < l.length) (u : FrameUnit) :
    resolveFrame os l ⟨u, .unboundedPreceding, .unboundedFollowing⟩ i =
      .ok ⟨0, l.length - 1⟩ := by
  have h1 : ((l.length : ℤ) - 1).toNat = l.length - 1 := by omega
  cases u
  · rw [resolveFrame_no_offset (by simp [numOffset])]
    have hlo : frameLowIdx os l
        ⟨.rows, .unboundedPreceding, .unboundedFollowing⟩ i = 0 := by
      show clampIdx l.length (rowsBound i l.length .unboundedPreceding) = 0
      simp only [clampIdx, rowsBound]
      omega
    have hhi : frameHighIdx os l
        ⟨.rows, .unboundedPreceding, .unboundedFollowing⟩ i =
        (l.length : ℤ) - 1 := by
      show clampIdx l.length (rowsBound i l.length .unboundedFollowing) =
        (l.length : ℤ) - 1
      simp only [clampIdx, rowsBound]
      omega
    rw [hlo, hhi, mkFrame_ok (by omega), h1]
    rfl
  · rw [resolveFrame_no_offset (by simp [numOffset])]
    have hlo : frameLowIdx os l
        ⟨.range, .unboundedPreceding, .unboundedFollowing⟩ i = 0 := rfl
    have hhi : frameHighIdx os l
        ⟨.range, .unboundedPreceding, .unboundedFollowing⟩ i =
        (l.length : ℤ) - 1 := rfl
    rw [hlo, hhi, mkFrame_ok (by omega), h1]
    rfl

theorem evalCall_lastValue_ok {os : OrderSpec} {fs : FrameSpec} {l : List Row}
    {i : ℕ} {col : String} {f : ResolvedFrame}
    (h : resolveFrame os l fs i = .ok f) :
    evalCall os fs l i (.lastValue col) = .ok (valueAtIdx col l f.high) := by
  unfold evalCall
  rw [h]

theorem resolveFrame_offset_nil {l : List Row} {fs : FrameSpec} {i : ℕ}
    (hC : fs.unit = .range ∧ (numOffset fs.lo ∨ numOffset fs.hi)) :
    resolveFrame [] l fs i = .error .typeMismatch := by
  unfold resolveFrame
  rw [if_pos hC]

theorem resolveFrame_offset_multi {e e' : OrderEntry} {es : List OrderEntry}
    {l : List Row} {fs : FrameSpec} {i : ℕ}
    (hC : fs.unit = .range ∧ (numOffset fs.lo ∨ numOffset fs.hi)) :
    resolveFrame (e :: e' :: es) l fs i = .error .invalidFrame := by
  unfold resolveFrame
  rw [if_pos hC]

theorem resolveFrame_offset_single {e : OrderEntry} {l : List Row}
    {fs : FrameSpec} {i : ℕ}
    (hC : fs.unit = .range ∧ (numOffset fs.lo ∨ numOffset fs.hi)) :
    resolveFrame [e] l fs i =
      if l.all (fun r => (numKey e r).isSome) then
        mkFrame (frameLowIdx [e] l fs i) (frameHighIdx [e] l fs i)
      else .error .typeMismatch := by
  unfold resolveFrame
  rw [if_pos hC]

theorem resolveFrame_invalidFrame_iff (os : OrderSpec) (l : List Row)
    (fs : FrameSpec) (i : ℕ) :
    resolveFrame os l fs i = .error .invalidFrame ↔
      (fs.unit = .range ∧ (numOffset fs.lo ∨ numOffset fs.hi) ∧
        2 ≤ os.length) ∨
      (offsetFrameOk os l fs ∧
        frameHighIdx os l fs i < frameLowIdx os l fs i) := by
  by_cases hC : fs.unit = .range ∧ (numOffset fs.lo ∨ numOffset fs.hi)
  · cases os with
    | nil =>
      rw [resolveFrame_offset_nil hC]
      constructor
      · intro h
        exact absurd h (by simp)
      · rintro (⟨-, -, hlen⟩ | ⟨hok, -⟩)
        · exact absurd hlen (by simp)
        · obtain ⟨e, he, -⟩ := hok hC
          exact List.noConfusion he
    | cons e es =>
      cases es with
      | nil =>
        rw [resolveFrame_offset_single hC]
        by_cases hall : l.all (fun r => (numKey e r).isSome)
        · rw [if_pos hall]
          constructor
          · intro h
            refine Or.inr ⟨fun _ => ⟨e, rfl, hall⟩, ?_⟩
            exact mkFrame_error_iff.1 h
          · rintro (⟨-, -, hlen⟩ | ⟨-, hlt⟩)
            · exact absurd hlen (by simp)
            · exact mkFrame_error_iff.2 hlt
        · rw [if_neg hall]
          constructor
          · intro h
            exact absurd h (by simp)
          · rintro (⟨-, -, hlen⟩ | ⟨hok, -⟩)
            · exact absurd hlen (by simp)
            · obtain ⟨e', he', hall'⟩ := hok hC
              rw [List.cons.injEq] at he'
              obtain ⟨rfl, -⟩ := he'
              exact absurd hall' hall
      | cons e' es' =>
        rw [resolveFrame_offset_multi hC]
        constructor
        · intro _
          exact Or.inl ⟨hC.1, hC.2, by simp⟩
        · intro _
          rfl
  · rw [resolveFrame_no_offset hC]
    rw [mkFrame_error_iff]
    constructor
    · intro h
      exact Or.inr ⟨fun hc => absurd hc hC, h⟩
    · rintro (⟨h1, h2, -⟩ | ⟨-, hlt⟩)
      · exact absurd ⟨h1, h2⟩ hC
      · exact hlt

theorem mkRat_eq_div' (n : ℤ) (d : ℕ) : mkRat n d = (n : ℚ) / (d : ℚ) := by
  rw [Rat.mkRat_eq_divInt, Rat.divInt_eq_div]
  norm_num

/-- C1: on the eight worked-example rows of the notebook, partitioned by date
and ordered by amount descending, the date 2019-04-01 partition is ordered as
amounts 60, 40, 40, 30, 20 and the engine computes exactly
row_number [1,2,3,4,5], rank [1,2,2,4,5], dense_rank [1,2,2,3,4],
percent_rank [0, 1/4, 1/4, 3/4, 1], lag(amount,1) [null,60,40,40,30],
lead(amount,1) [40,40,30,20,null], and last_value(amount) under the frame
ROWS BETWEEN UNBOUNDED PRECEDING AND UNBOUNDED FOLLOWING equal to 20 for
every row of the partition. -/
theorem evaluate_worked_example :
    partitionBy ["date"] customers = [d1rows, customers.drop 5] ∧
    d1sorted.map (fun r => r.get "amount") =
      [.num 60, .num 40, .num 40, .num 30, .num 20] ∧
    rowNumberCol d1sorted = [1, 2, 3, 4, 5] ∧
    rankCol amountDesc d1sorted = [1, 2, 2, 4, 5] ∧
    denseRankCol amountDesc d1sorted = [1, 2, 2, 3, 4] ∧
    percentRankCol amountDesc d1sorted = [0, 1 / 4, 1 / 4, 3 / 4, 1] ∧
    lagCol "amount" 1 .null d1sorted =
      [.null, .num 60, .num 40, .num 40, .num 30] ∧
    leadCol "amount" 1 .null d1sorted =
      [.num 40, .num 40, .num 30, .num 20, .null] ∧
    evalCol amountDesc ⟨.rows, .unboundedPreceding, .unboundedFollowing⟩
      d1sorted (.lastValue "amount") =
      List.replicate 5 (.ok (.num 20)) := by
  refine ⟨by decide, by decide, by decide, by decide, by decide, ?_,
    by decide, by decide, by decide⟩
  have h : percentRankCol amountDesc d1sorted =
      [0, mkRat 1 4, mkRat 1 4, mkRat 3 4, 1] := by
    decide
  rw [h]
  norm_num [mkRat_eq_div']

/-- C2: for every non-empty partition, the row_number values assigned over
the ordered partition are exactly a permutation of 1..partitionSize with no
duplicates, and they are strictly increasing in partition order, including
inside one peer group. -/
theorem rowNumber_permutation_strict_mono (os : OrderSpec) (p : List Row)
    (h : p ≠ []) :
    List.Perm (rowNumberCol (orderPartition os p)) (List.range' 1 p.length) ∧
    List.Pairwise (· < ·) (rowNumberCol (orderPartition os p)) ∧
    (rowNumberCol (orderPartition os p)).Nodup := by
  have hlen := length_orderPartition os p
  rw [rowNumberCol_eq_range' (orderPartition os p), hlen]
  exact ⟨List.Perm.refl _, List.pairwise_lt_range' 1 p.length,
    List.nodup_range' 1 p.length⟩

/-- C2 witness: the theorem applied to the worked-example date 2019-04-01
partition. -/
theorem rowNumber_permutation_strict_mono_witness :
    List.Perm (rowNumberCol (orderPartition amountDesc d1rows))
      (List.range' 1 d1rows.length) ∧
    List.Pairwise (· < ·) (rowNumberCol (orderPartition amountDesc d1rows)) ∧
    (rowNumberCol (orderPartition amountDesc d1rows)).Nodup :=
  rowNumber_permutation_strict_mono amountDesc d1rows (by decide)

/-- C3: over any evaluated partition, rank is non-decreasing in partition
order and bounded by the partition size; rows with the same peer-group id
share one rank; when one peer group immediately follows another, its rank
exceeds the earlier rank by exactly the earlier group's size, leaving a gap;
dense_rank is non-decreasing, steps by exactly one between adjacent peer
groups, and is bounded by the number of distinct peer groups. -/
theorem rank_denseRank_invariants (os : OrderSpec) (l : List Row) (i j : ℕ)
    (hi : i < l.length) (hj : j < l.length) :
    (i ≤ j → rankAt os l i ≤ rankAt os l j) ∧
    rankAt os l i ≤ l.length ∧
    (peerId os l i = peerId os l j → rankAt os l i = rankAt os l j) ∧
    (peerId os l j = peerId os l i + 1 →
      rankAt os l j = rankAt os l i +
        (idsList os l).countP (fun v => decide (v = peerId os l i))) ∧
    (i ≤ j → denseRankAt os l i ≤ denseRankAt os l j) ∧
    (peerId os l j = peerId os l i + 1 →
      denseRankAt os l j = denseRankAt os l i + 1) ∧
    denseRankAt os l i ≤ ((idsList os l).dedup).length := by
  refine ⟨fun hij => rankAt_mono hij, rankAt_le_length hi, ?_, fun hn =>
    rankAt_gap hn, ?_, ?_, denseRankAt_le_dedup hi⟩
  · intro he
    unfold rankAt
    rw [he]
  · intro hij
    rw [denseRankAt_eq_peerId hi, denseRankAt_eq_peerId hj]
    have hmono : peerId os l i ≤ peerId os l j := peerId_mono hij
    omega
  · intro hn
    rw [denseRankAt_eq_peerId hi, denseRankAt_eq_peerId hj, hn]

/-- C3 witness: the theorem applied inside the ordered worked-example
partition, at the tied peer group (rows 1 and 2) and across the gap to
row 3. -/
theorem rank_denseRank_invariants_witness :
    rankAt amountDesc d1sorted 1 ≤ rankAt amountDesc d1sorted 3 ∧
    rankAt amountDesc d1sorted 1 ≤ d1sorted.length ∧
    rankAt amountDesc d1sorted 1 = rankAt amountDesc d1sorted 2 ∧
    denseRankAt amountDesc d1sorted 1 ≤
      ((idsList amountDesc d1sorted).dedup).length := by
  have h13 := rank_denseRank_invariants amountDesc d1sorted 1 3
    (by decide) (by decide)
  have h12 := rank_denseRank_invariants amountDesc d1sorted 1 2
    (by decide) (by decide)
  exact ⟨h13.1 (by decide), h13.2.1, h12.2.2.1 (by decide),
    h13.2.2.2.2.2.2⟩

/-- C4 counterexample: in a two-row partition whose rows are peers, the
partition size exceeds 1 and the last row, which belongs to the last (and
only) peer group, has percent_rank 0, not 1; so percent_rank does not equal 1
for every row of the last peer group when partitionSize exceeds 1. -/
theorem percentRank_last_group_cex :
    1 < tiedSorted.length ∧
    percentRankAt amountDesc tiedSorted (tiedSorted.length - 1) ≠ 1 := by
  decide

/-- C4 amended: percent_rank equals (rank - 1) / (partitionSize - 1) when
partitionSize is not 1 and equals 0 when partitionSize is 1; it lies in
[0,1]; it equals 0 for every row of the first peer group; and when
partitionSize exceeds 1 it equals 1 exactly for the rows of rank equal to
partitionSize — that is, for the last peer group exactly when that group
contains a single row, not for every row of the last peer group. -/
theorem percentRank_formula_bounds (os : OrderSpec) (l : List Row) (i : ℕ)
    (hi : i < l.length) :
    (l.length = 1 → percentRankAt os l i = 0) ∧
    (l.length ≠ 1 → percentRankAt os l i =
      ((rankAt os l i : ℚ) - 1) / ((l.length : ℚ) - 1)) ∧
    0 ≤ percentRankAt os l i ∧ percentRankAt os l i ≤ 1 ∧
    (peerId os l i = 0 → percentRankAt os l i = 0) ∧
    (1 < l.length →
      (percentRankAt os l i = 1 ↔ rankAt os l i = l.length)) := by
  have hr1 : 1 ≤ rankAt os l i := rankAt_pos os l i
  have hrn : rankAt os l i ≤ l.length := rankAt_le_length hi
  have hform : ∀ hne : l.length ≠ 1, percentRankAt os l i =
      ((rankAt os l i : ℚ) - 1) / ((l.length : ℚ) - 1) := by
    intro hne
    unfold percentRankAt
    rw [if_neg hne, mkRat_eq_div']
    have h1 : 1 ≤ l.length := by omega
    push_cast [h1]
    norm_num
  refine ⟨?_, hform, ?_, ?_, ?_, ?_⟩
  · intro h1
    unfold percentRankAt
    rw [if_pos h1]
  · by_cases hne : l.length = 1
    · unfold percentRankAt
      rw [if_pos hne]
    · rw [hform hne]
      have h2 : 2 ≤ l.length := by omega
      apply div_nonneg
      · have : (1 : ℚ) ≤ (rankAt os l i : ℚ) := by
          exact_mod_cast hr1
        linarith
      · have : (2 : ℚ) ≤ (l.length : ℚ) := by
          exact_mod_cast h2
        linarith
  · by_cases hne : l.length = 1
    · unfold percentRankAt
      rw [if_pos hne]
      norm_num
    · rw [hform hne]
      have h2 : 2 ≤ l.length := by omega
      have hc2 : (2 : ℚ) ≤ (l.length : ℚ) := by
        exact_mod_cast h2
      have hcr : (rankAt os l i : ℚ) ≤ (l.length : ℚ) := by
        exact_mod_cast hrn
      rw [div_le_one (by linarith)]
      linarith
  · intro h0
    have hrank1 : rankAt os l i = 1 := by
      unfold rankAt
      rw [h0]
      have : (idsList os l).countP (fun v => decide (v < 0)) = 0 := by
        rw [List.countP_eq_zero]
        intro v _
        simp
      omega
    by_cases hne : l.length = 1
    · unfold percentRankAt
      rw [if_pos hne]
    · rw [hform hne, hrank1]
      norm_num
  · intro h2
    rw [hform (by omega)]
    have hc2 : (2 : ℚ) ≤ (l.length : ℚ) := by
      exact_mod_cast h2
    rw [div_eq_one_iff_eq (by linarith)]
    constructor
    · intro hq
      have : (rankAt os l i : ℚ) = (l.length : ℚ) := by linarith
      exact_mod_cast this
    · intro hq
      rw [hq]

/-- C4 witness: the amended theorem applied to the tied peer row of the
ordered worked-example partition. -/
theorem percentRank_formula_bounds_witness :
    0 ≤ percentRankAt amountDesc d1sorted 2 ∧
    percentRankAt amountDesc d1sorted 2 ≤ 1 ∧
    (percentRankAt amountDesc d1sorted 2 = 1 ↔
      rankAt amountDesc d1sorted 2 = d1sorted.length) := by
  have h := percentRank_formula_bounds amountDesc d1sorted 2 (by decide)
  exact ⟨h.2.2.1, h.2.2.2.1, h.2.2.2.2.2 (by decide)⟩

theorem evalRowCalls_lag_frame (os : OrderSpec) (fs fs' : FrameSpec)
    (l : List Row) (i : ℕ) (col : String) (off : ℕ) (dflt : Value)
    (out : String) :
    evalRowCalls os fs l i [⟨.lag col off dflt, out⟩] =
      evalRowCalls os fs' l i [⟨.lag col off dflt, out⟩] := rfl

theorem evalIndices_lag_frame (os : OrderSpec) (fs fs' : FrameSpec)
    (l : List Row) (col : String) (off : ℕ) (dflt : Value) (out : String) :
    ∀ is : List ℕ,
      evalIndices os fs l [⟨.lag col off dflt, out⟩] is =
        evalIndices os fs' l [⟨.lag col off dflt, out⟩] is
  | [] => rfl
  | i :: is => by
    unfold evalIndices
    rw [evalRowCalls_lag_frame os fs fs' l i col off dflt out,
      evalIndices_lag_frame os fs fs' l col off dflt out is]

/-- C5: for every partition, after ordering, the lag output column at row
index i holds the ordering column value of row i - offset of the full ordered
sequence; when the offset leaves the partition bounds (in particular
offset 1 at the first row) it holds the supplied default, which is null when
the call site supplies none; and the evaluation ignores the frame
specification entirely. -/
theorem lag_offset_semantics (os : OrderSpec) (fs fs' : FrameSpec)
    (p : List Row) (col out : String) (off : ℕ) (dflt : Value)
    (rows : List Row) (i : ℕ)
    (h : evaluatePartition os fs [⟨.lag col off dflt, out⟩] p = .ok rows)
    (hi : i < p.length) :
    (off ≤ i → (rows.getD i default).get out =
      ((orderPartition os p).getD (i - off) default).get col) ∧
    (i < off → (rows.getD i default).get out = dflt) ∧
    evaluatePartition os fs [⟨.lag col off dflt, out⟩] p =
      evaluatePartition os fs' [⟨.lag col off dflt, out⟩] p := by
  have hlen : (orderPartition os p).length = p.length :=
    length_orderPartition os p
  have hi' : i < (List.range (orderPartition os p).length).length := by
    simp only [List.length_range]
    omega
  unfold evaluatePartition at h
  obtain ⟨added, ha, hb⟩ := evalIndices_ok_getD h i hi'
  have hidx : (List.range (orderPartition os p).length).getD i 0 = i := by
    rw [getD_eq hi']
    simp
  rw [hidx] at ha hb
  have hcomp : evalRowCalls os fs (orderPartition os p) i
      [⟨.lag col off dflt, out⟩] =
      .ok [(out, lagAt col off dflt (orderPartition os p) i)] := rfl
  rw [hcomp] at ha
  have haval : added = [(out, lagAt col off dflt (orderPartition os p) i)] :=
    (Except.ok.inj ha).symm
  rw [haval] at hb
  have hget : (rows.getD i default).get out =
      lagAt col off dflt (orderPartition os p) i := by
    rw [hb]
    exact Row.get_mk_cons
  refine ⟨?_, ?_, ?_⟩
  · intro hoff
    rw [hget]
    unfold lagAt
    rw [if_pos ⟨hoff, by omega⟩]
  · intro hoff
    rw [hget]
    unfold lagAt
    rw [if_neg (by omega)]
  · unfold evaluatePartition
    exact evalIndices_lag_frame os fs fs' (orderPartition os p) col off dflt
      out (List.range (orderPartition os p).length)

/-- C5 witness: lag(amount, 1) over the tied two-row partition, at its second
row, yields the first row's amount. -/
theorem lag_offset_semantics_witness :
    (lagWitnessRows.getD 1 default).get "lag" =
      ((orderPartition amountDesc tiedRows).getD 0 default).get "amount" := by
  have h := lag_offset_semantics amountDesc (defaultFrame amountDesc)
    ⟨.rows, .unboundedPreceding, .unboundedFollowing⟩ tiedRows "amount" "lag"
    1 .null lagWitnessRows 1 (by decide) (by decide)
  exact h.1 (by decide)

/-- C6 counterexample: in the ordered worked-example partition
(amounts 60, 40, 40, 30, 20), lead(amount,1) at row 0 is 40 while
lag(amount,1) at row 1 is 60, so lead at row i does not equal lag at
row i+1. -/
theorem lead_lag_adjacent_cex :
    evalCall amountDesc (defaultFrame amountDesc) d1sorted 0
        (.lead "amount" 1 .null) ≠
      evalCall amountDesc (defaultFrame amountDesc) d1sorted 1
        (.lag "amount" 1 .null) := by
  decide

/-- C6 amended: lead and lag are offset by two positions, not one: for every
ordered partition, column and row index i with i+2 inside the partition,
lead(col,1) at row i equals lag(col,1) at row i+2 — both read the column of
row i+1 of the ordered sequence. -/
theorem lead_lag_offset_shift (os : OrderSpec) (fs : FrameSpec) (p : List Row)
    (col : String) (dflt : Value) (i : ℕ)
    (h : i + 2 < (orderPartition os p).length) :
    evalCall os fs (orderPartition os p) i (.lead col 1 dflt) =
      evalCall os fs (orderPartition os p) (i + 2) (.lag col 1 dflt) := by
  simp only [evalCall]
  congr 1
  unfold leadAt lagAt
  rw [if_pos (by omega : i + 1 < (orderPartition os p).length),
    if_pos ⟨by omega, by omega⟩, show i + 2 - 1 = i + 1 by omega]

/-- C6 witness: the amended shift at row 0 of the worked-example ordered
partition. -/
theorem lead_lag_offset_shift_witness :
    evalCall amountDesc (defaultFrame amountDesc)
        (orderPartition amountDesc d1rows) 0 (.lead "amount" 1 .null) =
      evalCall amountDesc (defaultFrame amountDesc)
        (orderPartition amountDesc d1rows) 2 (.lag "amount" 1 .null) :=
  lead_lag_offset_shift amountDesc (defaultFrame amountDesc) d1rows "amount"
    .null 0 (by decide)

/-- C7 counterexample: with the default frame (RANGE up to CURRENT ROW), over
the two-row tied partition last_value(customer_name) at the first row returns
the second, peer row's name, not the current row's own value. -/
theorem lastValue_default_frame_cex :
    evalCall amountDesc (defaultFrame amountDesc) tiedSorted 0
        (.lastValue "customer_name") = .ok (.str "b") ∧
    (tiedSorted.getD 0 default).get "customer_name" = .str "a" := by
  decide

/-- C7 amended: last_value(col) returns the column at ResolvedFrame.high.
Under the default frame, ending at CURRENT ROW with RANGE unit, that is the
last row of the current row's peer group — the current row's own value only
when the current row closes its peer group — and under an explicit frame
ending at UNBOUNDED FOLLOWING it is the partition's last ordered row for
every row. -/
theorem lastValue_frame_semantics (os : OrderSpec) (l : List Row)
    (col : String) (i j : ℕ) (u : FrameUnit)
    (hos : os ≠ []) (hi : i < l.length) (hj : j < l.length) :
    (evalCall os (defaultFrame os) l i (.lastValue col) =
      .ok (valueAtIdx col l (groupStop os l i - 1))) ∧
    (i ≤ groupStop os l i - 1 ∧ groupStop os l i - 1 < l.length ∧
      peerId os l (groupStop os l i - 1) = peerId os l i) ∧
    (groupStop os l i ≤ j → peerId os l i ≠ peerId os l j) ∧
    (groupStop os l i - 1 = i →
      evalCall os (defaultFrame os) l i (.lastValue col) =
        .ok (valueAtIdx col l i)) ∧
    (evalCall os ⟨u, .unboundedPreceding, .unboundedFollowing⟩ l i
        (.lastValue col) = .ok (valueAtIdx col l (l.length - 1))) := by
  have hres := resolveFrame_defaultFrame hos hi
  have hgl : i < groupStop os l i ∧ groupStop os l i - 1 < l.length ∧
      peerId os l (groupStop os l i - 1) = peerId os l i :=
    groupStop_last_peer hi
  refine ⟨evalCall_lastValue_ok hres, ⟨by omega, hgl.2.1, hgl.2.2⟩, ?_, ?_, ?_⟩
  · intro hgj
    have := peerId_lt_of_groupStop_le hi hj hgj
    omega
  · intro he
    rw [evalCall_lastValue_ok hres, he]
  · exact evalCall_lastValue_ok (resolveFrame_unbounded os l i (by omega) u)

/-- C7 witness: the amended theorem at the tied peer group of the
worked-example partition. -/
theorem lastValue_frame_semantics_witness :
    evalCall amountDesc (defaultFrame amountDesc) d1sorted 1
        (.lastValue "amount") =
      .ok (valueAtIdx "amount" d1sorted
        (groupStop amountDesc d1sorted 1 - 1)) ∧
    evalCall amountDesc ⟨.rows, .unboundedPreceding, .unboundedFollowing⟩
        d1sorted 1 (.lastValue "amount") =
      .ok (valueAtIdx "amount" d1sorted (d1sorted.length - 1)) := by
  have h := lastValue_frame_semantics amountDesc d1sorted "amount" 1 3 .rows
    (by decide) (by decide) (by decide)
  exact ⟨h.1, h.2.2.2.2⟩

/-- C8: frame resolution fails with InvalidFrame exactly when the frame is a
RANGE frame combining a numeric offset boundary with a multi-column
OrderSpec, or when — the numeric-offset prerequisites being satisfied — the
resolved and clamped start index exceeds the resolved end index; and no such
error is swallowed: whenever Evaluate succeeds, every per-row evaluation of
every bound call succeeded, so a failing call aborts the evaluation and the
error reaches the caller. -/
theorem invalidFrame_characterization (os : OrderSpec) (l : List Row)
    (fs : FrameSpec) (i : ℕ) (rows : List Row) (ws : WindowSpec)
    (calls : List FunctionCall) (out p : List Row) (j : ℕ)
    (c : FunctionCall) :
    (resolveFrame os l fs i = .error .invalidFrame ↔
      (fs.unit = .range ∧ (numOffset fs.lo ∨ numOffset fs.hi) ∧
        2 ≤ os.length) ∨
      (offsetFrameOk os l fs ∧
        frameHighIdx os l fs i < frameLowIdx os l fs i)) ∧
    (Evaluate rows ws calls = .ok out →
      p ∈ partitionBy ws.partitionKey rows →
      j < (orderPartition ws.orderSpec p).length →
      c ∈ calls →
      ∃ v, evalCall ws.orderSpec ws.frameSpec (orderPartition ws.orderSpec p)
        j c.kind = .ok v) :=
  ⟨resolveFrame_invalidFrame_iff os l fs i,
   fun h hp hj hc => Evaluate_ok_evalCall h hp hj hc⟩

/-- C8 witness: a ROWS frame whose clamped start exceeds its end resolves to
InvalidFrame, and the successful worked-example row_number evaluation has
every per-row call evaluated. -/
theorem invalidFrame_characterization_witness :
    resolveFrame amountDesc d1sorted ⟨.rows, .following 5, .preceding 5⟩ 2 =
      .error .invalidFrame ∧
    ∃ v, evalCall byDate.orderSpec byDate.frameSpec
      (orderPartition byDate.orderSpec d1rows) 0
      (FunctionCall.mk .rowNumber "row").kind = .ok v := by
  have h := invalidFrame_characterization amountDesc d1sorted
    ⟨.rows, .following 5, .preceding 5⟩ 2 customers byDate
    [⟨.rowNumber, "row"⟩] rowNumberOutput d1rows 0 ⟨.rowNumber, "row"⟩
  constructor
  · apply h.1.mpr
    refine Or.inr ⟨fun hc => absurd hc.1 (by decide), by decide⟩
  · exact h.2 (by decide) (by decide) (by decide) (by decide)

/-- C9: the evaluation is deterministic up to peer-order nondeterminism. The
model's Orderer is a deterministic stable sort, so re-evaluating the same
input gives identical output; beyond that, for any two admissible orderings
of the same partition — both sorted under the OrderSpec, both permutations
of the same rows — the row_number column assigns the same value list, and
the rank, dense_rank and percent_rank outputs agree up to permuting rows
within a peer group: the tagged (row, value) outputs are permutations of
each other. The pipeline's own ordering is one such admissible ordering. -/
theorem evaluate_peer_order_invariance (os : OrderSpec) (p l₁ l₂ : List Row)
    (h₁ : List.Perm l₁ p) (h₂ : List.Perm l₂ p)
    (hs₁ : SortedRows os l₁) (hs₂ : SortedRows os l₂) :
    rowNumberCol l₁ = rowNumberCol l₂ ∧
    List.Perm (l₁.zip (rankCol os l₁)) (l₂.zip (rankCol os l₂)) ∧
    List.Perm (l₁.zip (denseRankCol os l₁)) (l₂.zip (denseRankCol os l₂)) ∧
    List.Perm (l₁.zip (percentRankCol os l₁))
      (l₂.zip (percentRankCol os l₂)) ∧
    SortedRows os (orderPartition os p) ∧
    List.Perm (orderPartition os p) p := by
  have hlen : l₁.length = l₂.length := (h₁.trans h₂.symm).length_eq
  refine ⟨?_, rank_tagged_perm h₁ h₂ hs₁ hs₂, dense_tagged_perm h₁ h₂ hs₁ hs₂,
    percent_tagged_perm h₁ h₂ hs₁ hs₂, sorted_orderPartition os p,
    perm_orderPartition os p⟩
  rw [rowNumberCol_eq_range', rowNumberCol_eq_range', hlen]

/-- C9 witness: the two admissible orderings of the tied two-row partition. -/
theorem evaluate_peer_order_invariance_witness :
    rowNumberCol tiedSorted = rowNumberCol tiedSwapped ∧
    List.Perm (tiedSorted.zip (rankCol amountDesc tiedSorted))
      (tiedSwapped.zip (rankCol amountDesc tiedSwapped)) := by
  have h := evaluate_peer_order_invariance amountDesc tiedRows tiedSorted
    tiedSwapped (by decide) (by decide) (by decide) (by decide)
  exact ⟨h.1, h.2.1⟩

/-- C10: for each of the seven functions demonstrated in the notebook, the
DataFrame-API invocation and the SQL-expression invocation print identical
result rows on the same input table (the SQL cells name the computed column
differently, so the tables are compared on the displayed values), and the
engine reproduces exactly those printed rows. -/
theorem dataframe_sql_agreement :
    (showResult "row" (Evaluate customers byDate [⟨.rowNumber, "row"⟩]) =
      .ok dfShownRowNumber ∧ dfShownRowNumber = sqlShownRowNumber) ∧
    (showResult "row" (Evaluate customers byDate [⟨.rank, "row"⟩]) =
      .ok dfShownRank ∧ dfShownRank = sqlShownRank) ∧
    (showResult "row" (Evaluate customers byDate [⟨.denseRank, "row"⟩]) =
      .ok dfShownDenseRank ∧ dfShownDenseRank = sqlShownDenseRank) ∧
    (showResult "row" (Evaluate customers byDate [⟨.percentRank, "row"⟩]) =
      .ok dfShownPercentRank ∧ dfShownPercentRank = sqlShownPercentRank) ∧
    (showResult "lag"
        (Evaluate customers byDate [⟨.lag "amount" 1 .null, "lag"⟩]) =
      .ok dfShownLag ∧ dfShownLag = sqlShownLag) ∧
    (showResult "lead"
        (Evaluate customers byDate [⟨.lead "amount" 1 .null, "lead"⟩]) =
      .ok dfShownLead ∧ dfShownLead = sqlShownLead) ∧
    (showResult "last"
        (Evaluate customers byDateUnbounded [⟨.lastValue "amount", "last"⟩]) =
      .ok dfShownLast ∧ dfShownLast = sqlShownLast) := by
  exact ⟨⟨by decide, by decide⟩, ⟨by decide, by decide⟩, ⟨by decide, by decide⟩,
    ⟨by decide, by decide⟩, ⟨by decide, by decide⟩, ⟨by decide, by decide⟩,
    ⟨by decide, by decide⟩⟩

end SparkWindow
